import Mathlib

set_option maxHeartbeats 3000000

/-!
Verification of the `ysh` command-line front end: the token producers of
`src/token.rs`, the parsers of `src/parse.rs`, the environment-variable
scanner of `src/env.rs`, and the command assembly layer of `src/ast/*.rs`.
Strings are modelled as `List Char`; every producer is a pure function from
the input window to a result carrying the unparsed remainder and the value,
mirroring the `nom`-style `TokenResult` type.
-/

namespace Ysh

/-- A text window: a sequence of characters, modelling a borrowed `&str`. -/
abbrev Str := List Char

/-- The two `nom` failure kinds that the tokenizers distinguish:
`Err::Error` (recoverable mismatch) and `Err::Incomplete` (more input
required).  The error codes and `Needed` sizes carried by `nom` are not
observable in the claims and are dropped. -/
inductive TErr where
  | error : TErr
  | incomplete : TErr
deriving DecidableEq, Repr

/-- Result of a tokenizer (`TokenResult` in `token.rs`): the remaining
unparsed text together with the parsed value, or a failure kind. -/
inductive TRes (α : Type) where
  | ok : Str → α → TRes α
  | err : TErr → TRes α
deriving DecidableEq, Repr

/-- Rust's `char::is_whitespace`: the Unicode `White_Space` property. -/
def isWs (c : Char) : Bool :=
  let n := c.toNat
  n == 0x20 || (decide (0x09 ≤ n) && decide (n ≤ 0x0D)) || n == 0x85 ||
  n == 0xA0 || n == 0x1680 || (decide (0x2000 ≤ n) && decide (n ≤ 0x200A)) ||
  n == 0x2028 || n == 0x2029 || n == 0x202F || n == 0x205F || n == 0x3000

/-- Rust's `str::trim_start` (= the deprecated `str::trim_left`). -/
def trimStart (s : Str) : Str := s.dropWhile isWs

/-- Rust's `str::trim_end`. -/
def trimEnd (s : Str) : Str := (s.reverse.dropWhile isWs).reverse

/-- Rust's `str::trim`. -/
def rustTrim (s : Str) : Str := trimEnd (trimStart s)

/-- `nom`'s `tag!` specialised to a one-character tag: empty input is
`Incomplete`, a mismatched head is `Error`. -/
def tagChar (c : Char) (s : Str) : TRes Unit :=
  match s with
  | [] => .err .incomplete
  | x :: xs => if x = c then .ok xs () else .err .error

/-- `nom`'s streaming `take_until!` specialised to a one-character
delimiter: the text before the first occurrence is the value, the
remainder starts at the delimiter; if the delimiter never occurs the
result is `Incomplete`. -/
def takeUntil (c : Char) (s : Str) : TRes Str :=
  let pre := s.takeWhile (fun x => x != c)
  let post := s.dropWhile (fun x => x != c)
  if post.isEmpty then .err .incomplete else .ok post pre

/-- `nom`'s streaming `take_until1!`: like `takeUntil` but the taken text
must be non-empty (`Error` otherwise). -/
def takeUntil1 (c : Char) (s : Str) : TRes Str :=
  let pre := s.takeWhile (fun x => x != c)
  let post := s.dropWhile (fun x => x != c)
  if post.isEmpty then .err .incomplete
  else if pre.isEmpty then .err .error
  else .ok post pre

/-- `token::word` (= `parse::word`): `take_till1!(char::is_whitespace)`
with `Incomplete` downgraded to success when the whole non-empty window is
one word ("end-of-text is a valid end-of-word"). -/
def word (text : Str) : TRes Str :=
  let pre := text.takeWhile (fun c => !(isWs c))
  let post := text.dropWhile (fun c => !(isWs c))
  if post.isEmpty then
    if text.isEmpty then .err .incomplete else .ok [] text
  else if pre.isEmpty then .err .error
  else .ok post pre

/-- `token::squote` (= `parse::squote`):
`delimited!(tag!("'"), take_until!("'"), tag!("'"))`. -/
def squote (text : Str) : TRes Str :=
  match tagChar '\'' text with
  | .err e => .err e
  | .ok r1 _ =>
    match takeUntil '\'' r1 with
    | .err e => .err e
    | .ok r2 tok =>
      match tagChar '\'' r2 with
      | .err e => .err e
      | .ok r3 _ => .ok r3 tok

mutual

/-- `token::dquote`: after rejecting a blank window and consuming the
opening `"`, scan with `dquoteGo`. -/
def dquote (text : Str) : TRes Str :=
  if text.all isWs then .err .incomplete
  else
    match text with
    | [] => .err .incomplete
    | c :: rest => if c = '"' then dquoteGo rest else .err .error
termination_by 4 * text.length
decreasing_by simp_wf <;> omega

/-- The character crawl of `token::dquote` over the text after the opening
quote: `"` terminates, `\` skips the next character, `$` hands off to
`shellMeta` and fast-forwards past the returned token's characters; the
crawl exhausting the window is `Incomplete`. -/
def dquoteGo (s : Str) : TRes Str :=
  match s with
  | [] => .err .incomplete
  | c :: rest =>
    if c = '"' then .ok rest []
    else if c = '\\' then
      match rest with
      | [] => .err .incomplete
      | c2 :: rest2 =>
        match dquoteGo rest2 with
        | .ok rem tok => .ok rem (c :: c2 :: tok)
        | .err e => .err e
    else if c = '$' then
      match shellMeta (c :: rest) with
      | .err e => .err e
      | .ok _ tok =>
        match dquoteGo (rest.drop tok.length) with
        | .ok rem t => .ok rem (c :: (rest.take tok.length ++ t))
        | .err e => .err e
    else
      match dquoteGo rest with
      | .ok rem tok => .ok rem (c :: tok)
      | .err e => .err e
termination_by 4 * s.length + 2
decreasing_by
  all_goals simp_wf
  all_goals try simp only [List.length_drop]
  all_goals omega

/-- `token::shell_meta`: consume the `$` sigil, then dispatch on the next
character: `(` and `{` open a bracketed scan (`smLoop`), any other
character falls through to `word`, end of input is `Incomplete`. -/
def shellMeta (input : Str) : TRes Str :=
  match input with
  | [] => .err .incomplete
  | c :: text =>
    if c = '$' then
      match text with
      | [] => .err .incomplete
      | c2 :: rest =>
        if c2 = '(' then smLoop text ')' rest
        else if c2 = '{' then smLoop text '}' rest
        else word text
    else .err .error
termination_by 4 * input.length
decreasing_by all_goals simp_wf <;> omega

/-- The fast-forward selection inside `token::shell_meta`'s search loop:
`for tokenizer in &[dquote, squote, shell_meta]`, each behind
`trim_start`, taking the remainder of the first tokenizer that succeeds. -/
def smNext (rem : Str) : Option Str :=
  match dquote (trimStart rem) with
  | .ok rest _ => some rest
  | .err _ =>
    match squote (trimStart rem) with
    | .ok rest _ => some rest
    | .err _ =>
      match shellMeta (trimStart rem) with
      | .ok rest _ => some rest
      | .err _ => none
termination_by 4 * rem.length + 1
decreasing_by
  all_goals simp_wf
  all_goals
    have ht : (trimStart rem).length ≤ rem.length :=
      (List.dropWhile_suffix isWs).length_le
  all_goals omega

/-- The closing-bracket search of `token::shell_meta` over `text` (the
window after the `$`, whose head is the opening bracket), with `rem` the
unscanned suffix.  A blank suffix is `Incomplete`; otherwise the scanner
fast-forwards over a leading `dquote`, `squote` or `shellMeta` span
(`smNext`), else inspects one character: the closer terminates the
sequence (the token keeps the enclosing punctuation), any other character
is skipped.  For termination the fast-forward recursion argument is
truncated with `take`; this is the identity in every reachable state
because a successful tokenizer consumes at least its leading delimiter
(`smNext_lt` below). -/
def smLoop (text : Str) (close : Char) (rem : Str) : TRes Str :=
  if rem.all isWs then .err .incomplete
  else
    match rem with
    | [] => .err .incomplete
    | c :: rest2 =>
      match smNext (c :: rest2) with
      | some rest => smLoop text close (rest.take rest2.length)
      | none =>
        if c = close then
          .ok (text.drop (text.length - (c :: rest2).length + 1))
              (text.take (text.length - (c :: rest2).length + 1))
        else smLoop text close rest2
termination_by 4 * rem.length + 3
decreasing_by
  all_goals simp_wf
  all_goals try simp only [List.length_take]
  all_goals omega

end

/-- One step of `nom`'s `alt!` combinator: a success or an `Incomplete`
failure is returned as-is; only a recoverable `Error` falls through to the
next alternative. -/
def alt2 (r : TRes Str) (next : Unit → TRes Str) : TRes Str :=
  match r with
  | .ok rem v => .ok rem v
  | .err .error => next ()
  | .err .incomplete => .err .incomplete

/-- `token::atom`: `alt!(shell_meta | dquote | squote | word)`. -/
def atom (text : Str) : TRes Str :=
  alt2 (shellMeta text) fun _ =>
    alt2 (dquote text) fun _ =>
      alt2 (squote text) fun _ => word text

/-- `token::keyval`: take the text before the first `=` (`take_until1!`),
require it to be a single `word`, require the character right after that
word to be `=`, and parse the value with `atom`. -/
def keyval (text : Str) : TRes (Str × Str) :=
  match takeUntil1 '=' text with
  | .err e => .err e
  | .ok _ t =>
    match word t with
    | .err e => .err e
    | .ok _ w =>
      match tagChar '=' (text.drop w.length) with
      | .err e => .err e
      | .ok rem2 _ =>
        match atom rem2 with
        | .err e => .err e
        | .ok rem3 v => .ok rem3 (w, v)

/-- The key=value right-hand-side parser as the spec's words describe it
("word, then single-quote, then double-quote — priority in that order").
This definition follows the spec, not the source; it exists only to be
compared with the implementation's `atom`. -/
def specKeyvalValue (text : Str) : TRes Str :=
  alt2 (word text) fun _ =>
    alt2 (squote text) fun _ => dquote text

/-- An environment variable: the `key=value` pair produced by `keyval`
(`EnvVar` in `env.rs`). -/
abbrev EnvVar := Str × Str

/-- `EnvIter::next` (`env.rs`): apply `trim_start(keyval)` to the current
text; on success advance the text past the pair, on any failure stop. -/
def envNext (text : Str) : Option (Str × EnvVar) :=
  match keyval (trimStart text) with
  | .ok rem kv => some (rem, kv)
  | .err _ => none

/-- Driving `EnvIter` to exhaustion (`WithEnv::parse_from` fast-forwards
the iterator with `for_each(drop)`): the collected `EnvVar`s in order, and
the text left when `envNext` first fails.  On the empty window `envNext`
always fails, so that case is split off; for termination the recursion
argument is truncated with `take`, which is the identity in every
reachable state because a successful `keyval` consumes at least the key
and the `=` (`envNext_lt` below). -/
def envScan (text : Str) : List EnvVar × Str :=
  match text with
  | [] => ([], [])
  | c :: cs =>
    match envNext (c :: cs) with
    | some (rem, kv) =>
      let p := envScan (rem.take cs.length)
      (kv :: p.1, p.2)
    | none => ([], c :: cs)
termination_by text.length
decreasing_by
  all_goals simp_wf
  all_goals try simp only [List.length_take]
  all_goals omega

/-- The character crawl of `parse::dquote` (`parse.rs`): like the one in
`token.rs` but with no shell-meta hand-off (subshell grammar is
unimplemented there) and with every failure an `Error`. -/
def pdquoteGo : Str → TRes Str
  | [] => .err .error
  | c :: rest =>
    if c = '"' then .ok rest []
    else if c = '\\' then
      match rest with
      | [] => .err .error
      | c2 :: rest2 =>
        match pdquoteGo rest2 with
        | .ok rem tok => .ok rem (c :: c2 :: tok)
        | .err e => .err e
    else
      match pdquoteGo rest with
      | .ok rem tok => .ok rem (c :: tok)
      | .err e => .err e

/-- `parse::dquote`: rejects a window that is empty after `trim_right`,
requires a leading `"`, then crawls with `pdquoteGo`. -/
def pdquote (text : Str) : TRes Str :=
  if text.all isWs then .err .error
  else
    match text with
    | [] => .err .error
    | c :: rest => if c = '"' then pdquoteGo rest else .err .error

/-- `parse::token`: `alt!(dquote | squote | word)` over the `parse.rs`
parsers — note that `shell_meta` is not an alternative here. -/
def parseToken (text : Str) : TRes Str :=
  alt2 (pdquote text) fun _ =>
    alt2 (squote text) fun _ => word text

/-- Modelled from the spec: `parse::span`, called by the argument iterator
in `ast/invoke.rs`, does not exist in the sources.  The spec describes the
argument sequence as produced by the generic any-token producer behind a
leading-whitespace trim, which is exactly what the equivalent iterator in
`ast/mod.rs` uses (`parse::apply(str::trim_left, parse::token)`). -/
def span (text : Str) : TRes Str := parseToken (trimStart text)

/-- `ArgsIter::next` (`ast/invoke.rs`): `None` on an empty window, else one
`span` token, suppressing errors. -/
def argsNext (text : Str) : Option (Str × Str) :=
  if text.length ≤ 0 then none
  else
    match span text with
    | .ok rest v => some (rest, v)
    | .err _ => none

/-- One pass of Rust's `str::split_whitespace`: `acc` holds the reversed
characters of the run currently being read; a whitespace character closes
the run (if non-empty), any other character extends it. -/
def splitWsAux : Str → Str → List Str
  | [], acc => if acc.isEmpty then [] else [acc.reverse]
  | c :: rest, acc =>
    if isWs c then
      if acc.isEmpty then splitWsAux rest []
      else acc.reverse :: splitWsAux rest []
    else splitWsAux rest (c :: acc)

/-- Rust's `str::split_whitespace`: the maximal whitespace-free runs, in
order, with no empty runs. -/
def splitWhitespace (s : Str) : List Str := splitWsAux s []

instance {ε α : Type} [DecidableEq ε] [DecidableEq α] : DecidableEq (Except ε α) :=
  fun x y =>
    match x, y with
    | .ok a, .ok b =>
      if h : a = b then Decidable.isTrue (by rw [h])
      else Decidable.isFalse (fun hh => h (Except.ok.inj hh))
    | .error a, .error b =>
      if h : a = b then Decidable.isTrue (by rw [h])
      else Decidable.isFalse (fun hh => h (Except.error.inj hh))
    | .ok _, .error _ => Decidable.isFalse (fun hh => Except.noConfusion hh)
    | .error _, .ok _ => Decidable.isFalse (fun hh => Except.noConfusion hh)

/-- `Builtin` (`ast/builtin.rs`): the closed set of shell builtins.  The
`Cd` payload is the `&Path` argument, which borrows the path text
unchanged. -/
inductive Builtin where
  | clear : Builtin
  | cd : Str → Builtin
deriving DecidableEq, Repr

/-- The error vocabulary of the `Parse` trait (`parse.rs` `ParseError`),
with the one domain-specific `Other` payload that occurs, `CdError::NoPath`
(`ast/builtin.rs`), inlined as `noPath`. -/
inductive PError where
  | noInput : PError
  | unrecognized : PError
  | noPath : PError
deriving DecidableEq, Repr

/-- `Builtin::parse_from` (`ast/builtin.rs`): split the trimmed text on
whitespace; `clear` with no arguments, `cd` taking the next
whitespace-separated word as its path (`NoPath` if absent), anything else
`Unrecognized`. -/
def builtinParse (s : Str) : Except PError Builtin :=
  match splitWhitespace (rustTrim s) with
  | [] => .error .noInput
  | w :: args =>
    if w = "clear".toList then .ok .clear
    else if w = "cd".toList then
      match args with
      | [] => .error .noPath
      | p :: _ => .ok (.cd p)
    else .error .unrecognized

/-- `Invoke` (`ast/invoke.rs`): an external command name plus its lazy
argument iterator, represented by the iterator's remaining text. -/
structure Invoke where
  command : Str
  args : Str
deriving DecidableEq, Repr

/-- `Invoke::parse_from`: the first token from the argument iterator is
the command; the iterator keeps the rest of the text. -/
def invokeParse (text : Str) : Except PError Invoke :=
  match argsNext text with
  | some (rest, cmd) => .ok ⟨cmd, rest⟩
  | none => .error .noInput

/-- `Cmd` (`ast/mod.rs`): a builtin or an external invocation. -/
inductive Cmd where
  | builtin : Builtin → Cmd
  | invoke : Invoke → Cmd
deriving DecidableEq, Repr

/-- `Cmd::parse_from` (`ast/mod.rs`): try the builtin grammar first and on
*any* of its errors fall back to `Invoke`. -/
def cmdParse (s : Str) : Except PError Cmd :=
  match builtinParse s with
  | .ok b => .ok (.builtin b)
  | .error _ =>
    match invokeParse s with
    | .ok i => .ok (.invoke i)
    | .error e => .error e

/-- `WithEnv::parse_from` (`ast/mod.rs`): fast-forward an `EnvIter` over
the line, then parse the remaining text as a `Cmd`.  The `env` field of
the result, collected, is exactly the list of pairs the scan produced. -/
def withEnvParse (s : Str) : Except PError (List EnvVar × Cmd) :=
  let er := envScan s
  match cmdParse er.2 with
  | .ok c => .ok (er.1, c)
  | .error e => .error e

/-! ### A grammar of balanced nested interiors

The spec quantifies over "double-quoted input whose interior contains
balanced nested `$(...)`/`${...}` sequences and inner quotes".  The
following mutually inductive trees make that class precise: `BList` is a
double-quote interior (plain characters, backslash escapes, bracketed
shell meta-sequences), `SList` a bracket interior (plain characters,
single-quoted spans, double-quoted spans, nested meta-sequences), and
`MTree` a bracketed meta-sequence.  `flat…` renders a tree back to text
and `wf…` states the side conditions under which the rendering is
unambiguous (no stray delimiter characters). -/

mutual
inductive MTree : Type where
  | paren : SList → MTree
  | brace : SList → MTree
inductive SList : Type where
  | snil : SList
  | scons : SItem → SList → SList
inductive SItem : Type where
  | plain : Char → SItem
  | squo : Str → SItem
  | dquo : BList → SItem
  | meta : MTree → SItem
inductive BList : Type where
  | bnil : BList
  | bcons : BItem → BList → BList
inductive BItem : Type where
  | plain : Char → BItem
  | esc : Char → BItem
  | meta : MTree → BItem
end

mutual
def flatM : MTree → Str
  | .paren l => '$' :: '(' :: (flatSL l ++ [')'])
  | .brace l => '$' :: '{' :: (flatSL l ++ ['}'])
def flatSL : SList → Str
  | .snil => []
  | .scons i l => flatS i ++ flatSL l
def flatS : SItem → Str
  | .plain c => [c]
  | .squo s => '\'' :: (s ++ ['\''])
  | .dquo b => '"' :: (flatBL b ++ ['"'])
  | .meta m => flatM m
def flatBL : BList → Str
  | .bnil => []
  | .bcons i l => flatB i ++ flatBL l
def flatB : BItem → Str
  | .plain c => [c]
  | .esc c => ['\\', c]
  | .meta m => flatM m
end

mutual
def wfM : MTree → Bool
  | .paren l => wfSL ')' l
  | .brace l => wfSL '}' l
def wfSL (close : Char) : SList → Bool
  | .snil => true
  | .scons i l => wfS close i && wfSL close l
def wfS (close : Char) : SItem → Bool
  | .plain c => !(c == '"' || c == '\'' || c == '$' || c == close)
  | .squo s => s.all (fun c => c != '\'')
  | .dquo b => wfBL b
  | .meta m => wfM m
def wfBL : BList → Bool
  | .bnil => true
  | .bcons i l => wfB i && wfBL l
def wfB : BItem → Bool
  | .plain c => !(c == '"' || c == '\\' || c == '$')
  | .esc _ => true
  | .meta m => wfM m
end

/-! ### Basic facts about the producers -/

theorem trimStart_cons_of_ws {c : Char} (h : isWs c = true) (s : Str) :
    trimStart (c :: s) = trimStart s := by
  simp [trimStart, List.dropWhile_cons, h]

theorem trimStart_cons_of_not_ws {c : Char} (h : isWs c = false) (s : Str) :
    trimStart (c :: s) = c :: s := by
  simp [trimStart, List.dropWhile_cons, h]

theorem all_isWs_false_cons {c : Char} (h : isWs c = false) (s : Str) :
    (c :: s).all isWs = false := by
  simp [List.all_cons, h]

/-- A successful `word` decomposes its input as token ++ remainder, with a
non-empty token given by the maximal whitespace-free leading run. -/
theorem word_ok {t r v : Str} (h : word t = .ok r v) :
    v ++ r = t ∧ v ≠ [] ∧ v = t.takeWhile (fun c => !(isWs c)) ∧
      r = t.dropWhile (fun c => !(isWs c)) := by
  unfold word at h
  by_cases hp : (t.dropWhile (fun c => !(isWs c))).isEmpty
  · simp only [hp, if_true] at h
    by_cases ht : t.isEmpty
    · simp [ht] at h
    · simp only [ht, if_false] at h
      cases h
      refine ⟨by simp, by simpa using ht, ?_, by simpa [List.isEmpty_iff] using hp⟩
      have := List.takeWhile_append_dropWhile (p := fun c => !(isWs c)) (l := t)
      rw [List.isEmpty_iff.mp hp] at this
      simpa using this.symm
  · simp only [hp, if_false] at h
    by_cases hq : (t.takeWhile (fun c => !(isWs c))).isEmpty
    · simp [hq] at h
    · simp only [hq, if_false] at h
      cases h
      exact ⟨ List.takeWhile_append_dropWhile _ _, by simpa [List.isEmpty_iff] using hq,
        rfl, rfl⟩

theorem word_err {t : Str} {e : TErr} (h : word t = .err e) :
    (t = [] ∧ e = .incomplete) ∨
      ((∃ c rest, t = c :: rest ∧ isWs c = true) ∧ e = .error) := by
  unfold word at h
  by_cases hp : (t.dropWhile (fun c => !(isWs c))).isEmpty
  · simp only [hp, if_true] at h
    by_cases ht : t.isEmpty
    · simp only [ht, if_true] at h
      cases h
      exact Or.inl ⟨ List.isEmpty_iff.mp ht, rfl⟩
    · simp [ht] at h
  · simp only [hp, if_false] at h
    by_cases hq : (t.takeWhile (fun c => !(isWs c))).isEmpty
    · simp only [hq, if_true] at h
      cases h
      refine Or.inr ⟨?_, rfl⟩
      cases t with
      | nil => simp [List.takeWhile_nil] at hp
      | cons c rest =>
        refine ⟨c, rest, rfl, ?_⟩
        by_contra hc
        simp [List.takeWhile_cons, eq_false_of_ne_true hc] at hq
    · simp [hq] at h

/-- `word` on a non-empty all-non-whitespace window consumes everything. -/
theorem word_all_not_ws {t : Str} (h0 : t ≠ []) (h1 : t.all (fun c => !(isWs c)) = true) :
    word t = .ok [] t := by
  unfold word
  have htw : t.takeWhile (fun c => !(isWs c)) = t := List.takeWhile_eq_self_iff.mpr (by
    intro a ha; exact List.all_eq_true.mp h1 a ha)
  have hdw : t.dropWhile (fun c => !(isWs c)) = [] := List.dropWhile_eq_nil_iff.mpr (by
    intro a ha; exact List.all_eq_true.mp h1 a ha)
  simp [htw, hdw, h0]

/-- A successful `squote` decomposes its input as `'v'` ++ remainder with a
quote-free token. -/
theorem squote_ok {t r v : Str} (h : squote t = .ok r v) :
    t = '\'' :: v ++ '\'' :: r ∧ ∀ c ∈ v, c ≠ '\'' := by
  cases t with
  | nil => simp [squote, tagChar] at h
  | cons c rest =>
    by_cases hc : c = '\''
    · subst hc
      rcases hd : rest.dropWhile (fun x => x != '\'') with _ | ⟨d, ds⟩
      · simp [squote, tagChar, takeUntil, hd] at h
      · have hdq : d = '\'' := by
          have := List.head_dropWhile_not (p := fun x => x != '\'') (l := rest)
          rw [hd] at this
          simpa using this (by simp)
        subst hdq
        simp [squote, tagChar, takeUntil, hd] at h
        obtain ⟨h1, h2⟩ := h
        subst h1; subst h2
        constructor
        · have := List.takeWhile_append_dropWhile (p := fun x => x != '\'') (l := rest)
          rw [hd] at this
          exact congrArg (List.cons '\'') this.symm
        · intro x hx
          have := List.mem_takeWhile_imp hx
          simpa using this
    · simp [squote, tagChar, hc] at h

theorem squote_err_of_head {c : Char} {t : Str} (h : c ≠ '\'') :
    squote (c :: t) = .err .error := by
  simp [squote, tagChar, h]

/-- Computation rule for `squote` on a well-formed single-quoted span. -/
theorem squote_compute {s r : Str} (h : ∀ c ∈ s, c ≠ '\'') :
    squote ('\'' :: s ++ '\'' :: r) = .ok r s := by
  unfold squote tagChar takeUntil
  have hall : ∀ a ∈ s, ((fun x => x != '\'') a) = true := by
    intro a ha; simp only [bne_iff_ne, ne_eq]; exact h a ha
  have htw : (s ++ '\'' :: r).takeWhile (fun x => x != '\'') = s := by
    rw [List.takeWhile_append]
    simp only [List.takeWhile_eq_self_iff.mpr hall]
    simp [List.takeWhile_cons]
  have hdw : (s ++ '\'' :: r).dropWhile (fun x => x != '\'') = '\'' :: r := by
    rw [List.dropWhile_append]
    have h0 : s.dropWhile (fun x => x != '\'') = [] :=
      List.dropWhile_eq_nil_iff.mpr hall
    simp [h0, List.dropWhile_cons]
  simp [htw, hdw]

theorem dquote_err_of_head {c : Char} {s : Str} (hw : (c :: s).all isWs = false)
    (hc : ¬ c = '"') : dquote (c :: s) = .err .error := by
  rw [dquote.eq_def]
  simp [hw, hc]

theorem dquote_err_of_all_ws {s : Str} (hw : s.all isWs = true) :
    dquote s = .err .incomplete := by
  rw [dquote.eq_def]
  simp [hw]

theorem shellMeta_err_of_head {c : Char} {s : Str} (hc : ¬ c = '$') :
    shellMeta (c :: s) = .err .error := by
  rw [shellMeta.eq_def]
  simp [hc]

/-- A successful `dquoteGo` decomposes its input as token ++ `"` ++
remainder. -/
theorem dquoteGo_shape : ∀ (n : Nat) (s : Str), s.length ≤ n →
    ∀ r v, dquoteGo s = .ok r v → s = v ++ '"' :: r := by
  intro n
  induction n with
  | zero =>
    intro s hs r v h
    have h0 : s = [] := List.length_eq_zero.mp (Nat.le_zero.mp hs)
    subst h0
    simp [dquoteGo] at h
  | succ n IH =>
    intro s hs r v h
    rw [dquoteGo.eq_def] at h
    cases s with
    | nil => simp at h
    | cons c rest =>
      by_cases hq : c = '"'
      · subst hq
        simp at h
        obtain ⟨h1, h2⟩ := h
        subst h1; subst h2
        rfl
      · by_cases hb : c = '\\'
        · subst hb
          cases rest with
          | nil => simp at h
          | cons c2 rest2 =>
            cases hrec : dquoteGo rest2 with
            | err e => simp [hrec] at h
            | ok rem tok =>
              simp [hrec] at h
              obtain ⟨h1, h2⟩ := h
              subst h1; subst h2
              have hlen : rest2.length ≤ n := by
                simp only [List.length_cons] at hs; omega
              have := IH rest2 hlen _ _ hrec
              rw [List.cons_append, List.cons_append, ← this]
        · by_cases hdl : c = '$'
          · subst hdl
            cases hsm : shellMeta ('$' :: rest) with
            | err e => simp [hsm] at h
            | ok a tok =>
              cases hrec : dquoteGo (rest.drop tok.length) with
              | err e => simp [hsm, hrec] at h
              | ok rem t =>
                simp [hsm, hrec] at h
                obtain ⟨h1, h2⟩ := h
                subst h1; subst h2
                have hlen : (rest.drop tok.length).length ≤ n := by
                  simp only [List.length_cons] at hs
                  simp only [List.length_drop]; omega
                have hd := IH _ hlen _ _ hrec
                have hsplit := List.take_append_drop tok.length rest
                calc '$' :: rest = '$' :: (rest.take tok.length ++ rest.drop tok.length) := by
                      rw [hsplit]
                  _ = '$' :: (rest.take tok.length ++ (t ++ '"' :: rem)) := by rw [hd]
                  _ = ('$' :: (rest.take tok.length ++ t)) ++ '"' :: rem := by
                      simp [List.append_assoc]
          · simp only [if_neg hq, if_neg hb, if_neg hdl] at h
            cases hrec : dquoteGo rest with
            | err e => simp [hrec] at h
            | ok rem tok =>
              simp only [hrec, TRes.ok.injEq] at h
              obtain ⟨h1, h2⟩ := h
              subst h1; subst h2
              have hlen : rest.length ≤ n := by
                simp only [List.length_cons] at hs; omega
              have := IH rest hlen _ _ hrec
              rw [List.cons_append, ← this]

/-- A successful `dquote` decomposes its input as `"token"` ++ remainder. -/
theorem dquote_shape {t r v : Str} (h : dquote t = .ok r v) :
    t = '"' :: v ++ '"' :: r := by
  rw [dquote.eq_def] at h
  by_cases hw : t.all isWs
  · simp [hw] at h
  · simp only [hw, Bool.false_eq_true, if_false] at h
    cases t with
    | nil => simp at h
    | cons c rest =>
      by_cases hc : c = '"'
      · subst hc
        simp only [if_pos rfl] at h
        have := dquoteGo_shape rest.length rest (Nat.le_refl _) r v h
        rw [List.cons_append, ← this]
      · simp only [if_neg hc] at h
        cases h

theorem takeWhile_append_trimStart (s : Str) : s.takeWhile isWs ++ trimStart s = s :=
  List.takeWhile_append_dropWhile _ _

/-- Case analysis for a successful fast-forward selection. -/
theorem smNext_some {rem rest : Str} (h : smNext rem = some rest) :
    (∃ tk, dquote (trimStart rem) = .ok rest tk) ∨
    (∃ tk, squote (trimStart rem) = .ok rest tk) ∨
    (∃ tk, shellMeta (trimStart rem) = .ok rest tk) := by
  rw [smNext.eq_def] at h
  cases hdq : dquote (trimStart rem) with
  | ok a b =>
    rw [hdq] at h
    simp only [Option.some.injEq] at h
    exact Or.inl ⟨b, by rw [h]⟩
  | err e1 =>
    rw [hdq] at h
    cases hsq : squote (trimStart rem) with
    | ok a b =>
      rw [hsq] at h
      simp only [Option.some.injEq] at h
      exact Or.inr (Or.inl ⟨b, by rw [h]⟩)
    | err e2 =>
      rw [hsq] at h
      cases hsm : shellMeta (trimStart rem) with
      | ok a b =>
        rw [hsm] at h
        simp only [Option.some.injEq] at h
        exact Or.inr (Or.inr ⟨b, by rw [h]⟩)
      | err e3 => rw [hsm] at h; cases h

/-- Combined success-shape invariant for the bracketed scan and the
shell-meta producer: `smLoop` returns a non-empty take/drop split of its
`text` window ending at the closer, and a successful `shellMeta`
decomposes its input as `$` followed by token ++ remainder. -/
theorem sm_shape_main : ∀ n : Nat,
    (∀ s : Str, s.length ≤ n → ∀ r v, shellMeta s = .ok r v → s = '$' :: (v ++ r)) ∧
    (∀ rem : Str, rem.length ≤ n → ∀ text close r v, (∃ u, u ++ rem = text) →
      smLoop text close rem = .ok r v →
      ∃ k, 1 ≤ k ∧ k ≤ text.length ∧ v = text.take k ∧ r = text.drop k ∧
        v.getLast? = some close) := by
  intro n
  induction n using Nat.strong_induction_on with
  | _ n IH =>
    have SM : ∀ s : Str, s.length ≤ n → ∀ r v, shellMeta s = .ok r v →
        s = '$' :: (v ++ r) := by
      intro s hs r v h
      rw [shellMeta.eq_def] at h
      cases s with
      | nil => simp at h
      | cons c text =>
        by_cases hc : c = '$'
        · subst hc
          simp only [if_pos rfl] at h
          cases text with
          | nil => simp at h
          | cons c2 rest =>
            by_cases h2 : c2 = '('
            · subst h2
              simp only [if_pos rfl] at h
              have hlt : rest.length < n := by
                simp only [List.length_cons] at hs; omega
              have hsm := (IH rest.length hlt).2 rest (Nat.le_refl _) ('(' :: rest) ')'
                r v ⟨['('], rfl⟩ h
              obtain ⟨k, _, _, hv, hr, _⟩ := hsm
              have hvr : v ++ r = '(' :: rest := by
                rw [hv, hr]; exact List.take_append_drop _ _
              rw [hvr]
            · by_cases h3 : c2 = '{'
              · subst h3
                simp only [if_neg h2, if_pos rfl] at h
                have hlt : rest.length < n := by
                  simp only [List.length_cons] at hs; omega
                have hsm := (IH rest.length hlt).2 rest (Nat.le_refl _) ('{' :: rest) '}'
                  r v ⟨['{'], rfl⟩ h
                obtain ⟨k, _, _, hv, hr, _⟩ := hsm
                have hvr : v ++ r = '{' :: rest := by
                  rw [hv, hr]; exact List.take_append_drop _ _
                rw [hvr]
              · simp only [if_neg h2, if_neg h3] at h
                have := (word_ok h).1
                rw [this]
        · simp only [if_neg hc] at h
          simp at h
    refine ⟨SM, ?_⟩
    intro rem hrem text close r v hsuf h
    by_cases hws : rem.all isWs = true
    · rw [smLoop.eq_def] at h
      simp [hws] at h
    · have hws' : rem.all isWs = false := eq_false_of_ne_true hws
      have htrim_le : (trimStart rem).length ≤ rem.length :=
        (List.dropWhile_suffix isWs).length_le
      have hsuf_trim : ∃ u, u ++ trimStart rem = rem :=
        ⟨rem.takeWhile isWs, takeWhile_append_trimStart rem⟩
      cases rem with
      | nil => simp at hws'
      | cons c rest2 =>
        cases hn : smNext (c :: rest2) with
        | some rest =>
          -- the selected tokenizer consumed at least one character
          have hrest : (∃ u, u ++ rest = trimStart (c :: rest2)) ∧
              rest.length < (c :: rest2).length := by
            rcases smNext_some hn with ⟨tk, hp⟩ | ⟨tk, hp⟩ | ⟨tk, hp⟩
            · have hshape := dquote_shape hp
              constructor
              · exact ⟨'"' :: tk ++ ['"'], by rw [hshape]; simp⟩
              · have hl := congrArg List.length hshape
                simp only [List.length_cons, List.length_append] at hl htrim_le ⊢
                omega
            · have hshape := (squote_ok hp).1
              constructor
              · exact ⟨'\'' :: tk ++ ['\''], by rw [hshape]; simp⟩
              · have hl := congrArg List.length hshape
                simp only [List.length_cons, List.length_append] at hl htrim_le ⊢
                omega
            · have hshape := SM (trimStart (c :: rest2))
                (Nat.le_trans htrim_le hrem) _ _ hp
              constructor
              · exact ⟨['$'] ++ tk, by rw [hshape]; simp⟩
              · have hl := congrArg List.length hshape
                simp only [List.length_cons, List.length_append] at hl htrim_le ⊢
                omega
          have hle : rest.length ≤ rest2.length := by
            have := hrest.2
            simp only [List.length_cons] at this
            omega
          rw [smLoop.eq_def] at h
          simp only [hws', Bool.false_eq_true, if_false, hn,
            List.take_of_length_le hle] at h
          have hsuf' : ∃ u, u ++ rest = text := by
            obtain ⟨u0, hu0⟩ := hsuf
            obtain ⟨u1, hu1⟩ := hrest.1
            obtain ⟨u2, hu2⟩ := hsuf_trim
            refine ⟨u0 ++ (u2 ++ u1), ?_⟩
            rw [List.append_assoc, List.append_assoc, hu1, hu2, hu0]
          have hn1 : 1 ≤ n := by
            simp only [List.length_cons] at hrem; omega
          have hrest_n : rest.length ≤ n - 1 := by
            have h2 := hrest.2
            simp only [List.length_cons] at h2 hrem
            omega
          exact (IH (n - 1) (by omega)).2 rest hrest_n text close r v hsuf' h
        | none =>
          rw [smLoop.eq_def] at h
          by_cases hc : c = close
          · simp only [hws', Bool.false_eq_true, if_false, hn, if_pos hc,
              TRes.ok.injEq] at h
            obtain ⟨h1, h2⟩ := h
            obtain ⟨u0, hu0⟩ := hsuf
            have hlen : text.length = u0.length + (rest2.length + 1) := by
              rw [← hu0]; simp [List.length_append]
            have hk : text.length - (c :: rest2).length + 1 = u0.length + 1 := by
              simp only [List.length_cons]; omega
            refine ⟨u0.length + 1, by omega, by omega, ?_, ?_, ?_⟩
            · rw [← h2, hk]
            · rw [← h1, hk]
            · rw [← h2, hk]
              have htext : text = (u0 ++ [c]) ++ rest2 := by
                rw [← hu0]; simp
              rw [htext, List.take_left' (by simp), hc]
              exact List.getLast?_concat _
          · simp only [hws', Bool.false_eq_true, if_false, hn, if_neg hc] at h
            have hsuf' : ∃ u, u ++ rest2 = text := by
              obtain ⟨u0, hu0⟩ := hsuf
              exact ⟨u0 ++ [c], by rw [List.append_assoc]; simpa using hu0⟩
            have hrem2 : rest2.length ≤ n - 1 := by
              simp only [List.length_cons] at hrem; omega
            exact (IH (n - 1) (by
              simp only [List.length_cons] at hrem; omega)).2 rest2 hrem2
              text close r v hsuf' h

/-- A successful `shellMeta` decomposes its input as `$` ++ token ++
remainder: the token excludes the `$` sigil, and the remainder starts
exactly where the token ends. -/
theorem shellMeta_shape {s r v : Str} (h : shellMeta s = .ok r v) :
    s = '$' :: (v ++ r) :=
  (sm_shape_main s.length).1 s (Nat.le_refl _) r v h

/-- On a parenthesized form the token keeps the enclosing punctuation. -/
theorem shellMeta_paren_shape {rest r v : Str}
    (h : shellMeta ('$' :: '(' :: rest) = .ok r v) :
    v.head? = some '(' ∧ v.getLast? = some ')' := by
  rw [shellMeta.eq_def] at h
  simp only [if_pos rfl] at h
  obtain ⟨k, hk1, _, hv, _, hlast⟩ := (sm_shape_main rest.length).2 rest
    (Nat.le_refl _) ('(' :: rest) ')' r v ⟨['('], rfl⟩ h
  subst hv
  refine ⟨?_, hlast⟩
  cases k with
  | zero => omega
  | succ k => simp [List.take_succ_cons]

/-- On a braced form the token keeps the enclosing punctuation. -/
theorem shellMeta_brace_shape {rest r v : Str}
    (h : shellMeta ('$' :: '{' :: rest) = .ok r v) :
    v.head? = some '{' ∧ v.getLast? = some '}' := by
  rw [shellMeta.eq_def] at h
  simp only [if_pos rfl] at h
  have hne : ¬ ('{' : Char) = '(' := by decide
  rw [if_neg hne] at h
  obtain ⟨k, hk1, _, hv, _, hlast⟩ := (sm_shape_main rest.length).2 rest
    (Nat.le_refl _) ('{' :: rest) '}' r v ⟨['{'], rfl⟩ h
  subst hv
  refine ⟨?_, hlast⟩
  cases k with
  | zero => omega
  | succ k => simp [List.take_succ_cons]

/-! ### Consumption: every successful producer strictly shrinks the window -/

theorem word_lt {t r v : Str} (h : word t = .ok r v) : r.length < t.length := by
  obtain ⟨heq, hne, _, _⟩ := word_ok h
  have := congrArg List.length heq
  simp only [List.length_append] at this
  have : 0 < v.length := List.length_pos.mpr hne
  omega

theorem squote_lt {t r v : Str} (h : squote t = .ok r v) : r.length < t.length := by
  have heq := (squote_ok h).1
  have := congrArg List.length heq
  simp only [List.length_cons, List.length_append] at this
  omega

theorem dquote_lt {t r v : Str} (h : dquote t = .ok r v) : r.length < t.length := by
  have heq := dquote_shape h
  have := congrArg List.length heq
  simp only [List.length_cons, List.length_append] at this
  omega

theorem shellMeta_lt {t r v : Str} (h : shellMeta t = .ok r v) :
    r.length < t.length := by
  have heq := shellMeta_shape h
  have := congrArg List.length heq
  simp only [List.length_cons, List.length_append] at this
  omega

/-- `alt!` analysis: a success comes from the first alternative, or from
the rest after a recoverable error. -/
theorem alt2_ok {x : TRes Str} {next : Unit → TRes Str} {rem v : Str}
    (h : alt2 x next = .ok rem v) :
    x = .ok rem v ∨ (x = .err .error ∧ next () = .ok rem v) := by
  cases x with
  | ok a b =>
    simp only [alt2] at h
    exact Or.inl h
  | err e =>
    cases e with
    | error => exact Or.inr ⟨rfl, by simpa [alt2] using h⟩
    | incomplete => simp [alt2] at h

/-- The token produced by `atom` comes from one of the four producers. -/
theorem atom_ok_cases {t rem v : Str} (h : atom t = .ok rem v) :
    shellMeta t = .ok rem v ∨ dquote t = .ok rem v ∨ squote t = .ok rem v ∨
      word t = .ok rem v := by
  unfold atom at h
  rcases alt2_ok h with h1 | ⟨_, h1⟩
  · exact Or.inl h1
  rcases alt2_ok h1 with h2 | ⟨_, h2⟩
  · exact Or.inr (Or.inl h2)
  rcases alt2_ok h2 with h3 | ⟨_, h3⟩
  · exact Or.inr (Or.inr (Or.inl h3))
  · exact Or.inr (Or.inr (Or.inr h3))

/-- `atom`'s remainder is a suffix, its token a contiguous slice, and some
input is always consumed. -/
theorem atom_parts {t rem v : Str} (h : atom t = .ok rem v) :
    (∃ u, u ++ rem = t) ∧ (∃ a b, a ++ (v ++ b) = t) ∧ rem.length < t.length := by
  rcases atom_ok_cases h with h1 | h1 | h1 | h1
  · have hs := shellMeta_shape h1
    refine ⟨⟨'$' :: v, by rw [hs]; simp⟩, ⟨['$'], rem, by rw [hs]; simp⟩,
      shellMeta_lt h1⟩
  · have hs := dquote_shape h1
    refine ⟨⟨'"' :: v ++ ['"'], by rw [hs]; simp⟩,
      ⟨['"'], '"' :: rem, by rw [hs]; simp⟩, dquote_lt h1⟩
  · have hs := (squote_ok h1).1
    refine ⟨⟨'\'' :: v ++ ['\''], by rw [hs]; simp⟩,
      ⟨['\''], '\'' :: rem, by rw [hs]; simp⟩, squote_lt h1⟩
  · have hs := (word_ok h1).1
    exact ⟨⟨v, hs⟩, ⟨[], rem, by rw [← hs]; simp⟩, word_lt h1⟩

/-- `keyval`'s remainder is a suffix, the key a leading slice, the value a
contiguous slice, and the window strictly shrinks. -/
theorem keyval_parts {t rem : Str} {kv : Str × Str}
    (h : keyval t = .ok rem kv) :
    (∃ u, u ++ rem = t) ∧ (∃ z, kv.1 ++ z = t) ∧
      (∃ a b, a ++ (kv.2 ++ b) = t) ∧ rem.length < t.length := by
  unfold keyval at h
  cases htu : takeUntil1 '=' t with
  | err e => rw [htu] at h; cases h
  | ok post pre =>
    rw [htu] at h
    dsimp only at h
    cases hw : word pre with
    | err e => rw [hw] at h; cases h
    | ok wr w =>
      rw [hw] at h
      dsimp only at h
      cases htag : tagChar '=' (t.drop w.length) with
      | err e => rw [htag] at h; cases h
      | ok rem2 u =>
        rw [htag] at h
        dsimp only at h
        cases hat : atom rem2 with
        | err e => rw [hat] at h; cases h
        | ok rem3 v =>
          rw [hat] at h
          dsimp only at h
          simp only [TRes.ok.injEq] at h
          obtain ⟨h1, h2⟩ := h
          subst h1; subst h2
          -- structure of the pieces
          have hpre : pre = t.takeWhile (fun x => x != '=') := by
            unfold takeUntil1 at htu
            by_cases hp : (t.dropWhile (fun x => x != '=')).isEmpty
            · simp [hp] at htu
            · by_cases hq : (t.takeWhile (fun x => x != '=')).isEmpty
              · simp [hp, hq] at htu
              · simp [hp, hq] at htu
                exact htu.2.symm
          have hwshape := word_ok hw
          -- the key is a leading slice of `t`
          have hkey : ∃ z, w ++ z = t := by
            obtain ⟨hw1, _, _, _⟩ := hwshape
            refine ⟨wr ++ t.dropWhile (fun x => x != '='), ?_⟩
            rw [← List.append_assoc, hw1, hpre]
            exact List.takeWhile_append_dropWhile _ _
          -- the drop decomposes t
          have hdropdec : w ++ t.drop w.length = t := by
            obtain ⟨z, hz⟩ := hkey
            have hwl : t.take w.length = w := by
              rw [← hz]; exact List.take_left' rfl
            calc w ++ t.drop w.length = t.take w.length ++ t.drop w.length := by
                  rw [hwl]
              _ = t := List.take_append_drop _ _
          -- the tag consumed the '='
          have htagdec : '=' :: rem2 = t.drop w.length := by
            unfold tagChar at htag
            cases hd : t.drop w.length with
            | nil => rw [hd] at htag; cases htag
            | cons x xs =>
              rw [hd] at htag
              by_cases hx : x = '='
              · subst hx
                simp at htag
                rw [htag]
              · simp [hx] at htag
          obtain ⟨hsuf3, hinf3, hlt3⟩ := atom_parts hat
          constructor
          · obtain ⟨u3, hu3⟩ := hsuf3
            exact ⟨w ++ '=' :: u3, by
              rw [List.append_assoc, ← hdropdec, ← htagdec]
              simp [hu3]⟩
          refine ⟨hkey, ?_, ?_⟩
          · obtain ⟨a3, b3, hab⟩ := hinf3
            exact ⟨w ++ '=' :: a3, b3, by
              rw [List.append_assoc, ← hdropdec, ← htagdec]
              simp [hab]⟩
          · have h1 : rem2.length + 1 = (t.drop w.length).length := by
              rw [← htagdec]; simp
            have h2 : (t.drop w.length).length ≤ t.length := by
              simp [List.length_drop]
            omega

/-- A successful fast-forward selection strictly shrinks the window. -/
theorem smNext_lt {rem rest : Str} (h : smNext rem = some rest) :
    rest.length < rem.length := by
  have htrim : (trimStart rem).length ≤ rem.length :=
    (List.dropWhile_suffix isWs).length_le
  rcases smNext_some h with ⟨tk, hp⟩ | ⟨tk, hp⟩ | ⟨tk, hp⟩
  · have hl := congrArg List.length (dquote_shape hp)
    simp only [List.length_cons, List.length_append] at hl
    omega
  · have hl := congrArg List.length (squote_ok hp).1
    simp only [List.length_cons, List.length_append] at hl
    omega
  · have hl := congrArg List.length (shellMeta_shape hp)
    simp only [List.length_cons, List.length_append] at hl
    omega

/-- A successful `envNext` step strictly shrinks the window. -/
theorem envNext_lt {t rem : Str} {kv : EnvVar} (h : envNext t = some (rem, kv)) :
    rem.length < t.length := by
  unfold envNext at h
  cases hk : keyval (trimStart t) with
  | err e => rw [hk] at h; cases h
  | ok a b =>
    rw [hk] at h
    simp only [Option.some.injEq, Prod.mk.injEq] at h
    obtain ⟨h1, _⟩ := h
    subst h1
    have hlt := (keyval_parts hk).2.2.2
    have htrim : (trimStart t).length ≤ t.length :=
      (List.dropWhile_suffix isWs).length_le
    omega

/-- `envNext` fails on the empty window. -/
theorem envNext_nil : envNext ([] : Str) = none := by
  unfold envNext keyval takeUntil1 trimStart
  simp

/-- Unfolding `envScan` on a successful step. -/
theorem envScan_some {t rem : Str} {kv : EnvVar} (h : envNext t = some (rem, kv)) :
    envScan t = (kv :: (envScan rem).1, (envScan rem).2) := by
  cases t with
  | nil => rw [envNext_nil] at h; cases h
  | cons c cs =>
    rw [envScan.eq_def]
    simp only [h]
    have hlt := envNext_lt h
    simp only [List.length_cons] at hlt
    rw [List.take_of_length_le (by omega)]

/-- Unfolding `envScan` on a failing step. -/
theorem envScan_none {t : Str} (h : envNext t = none) : envScan t = ([], t) := by
  cases t with
  | nil => rw [envScan.eq_def]
  | cons c cs =>
    rw [envScan.eq_def]
    simp only [h]

/-- C9: the environment-prefix scan is idempotent at its stopping point:
running `envScan` to exhaustion and re-running it on the unconsumed
remainder produces zero additional `EnvVar` pairs. -/
theorem env_prefix_scan_idempotent :
    ∀ t : Str, envScan (envScan t).2 = ([], (envScan t).2) := by
  have H : ∀ n : Nat, ∀ t : Str, t.length ≤ n →
      envScan (envScan t).2 = ([], (envScan t).2) := by
    intro n
    induction n with
    | zero =>
      intro t ht
      have h0 : t = [] := List.length_eq_zero.mp (Nat.le_zero.mp ht)
      subst h0
      rw [envScan_none envNext_nil]
      exact envScan_none envNext_nil
    | succ n IH =>
      intro t ht
      cases hn : envNext t with
      | some p =>
        obtain ⟨rem, kv⟩ := p
        rw [envScan_some hn]
        have := envNext_lt hn
        exact IH rem (by omega)
      | none =>
        rw [envScan_none hn]
        exact envScan_none hn
  intro t
  exact H t.length t (Nat.le_refl _)

/-- C8: on a non-empty window with no leading whitespace, `word` returns
the maximal leading whitespace-free run as the token and everything after
it as the remainder (also when the word runs to the end of the window);
and `word` fails with `Incomplete` exactly when the window is empty. -/
theorem word_maximal_run :
    (∀ (t : Str) (c : Char) (rest : Str), t = c :: rest → isWs c = false →
      word t = .ok (t.dropWhile (fun x => !(isWs x))) (t.takeWhile (fun x => !(isWs x))) ∧
      t.takeWhile (fun x => !(isWs x)) ≠ [] ∧
      t.takeWhile (fun x => !(isWs x)) ++ t.dropWhile (fun x => !(isWs x)) = t) ∧
    (∀ t : Str, word t = .err .incomplete ↔ t = []) := by
  constructor
  · intro t c rest h1 h2
    subst h1
    have hpre : (c :: rest).takeWhile (fun x => !(isWs x)) =
        c :: rest.takeWhile (fun x => !(isWs x)) := by
      rw [List.takeWhile_cons]
      simp [h2]
    refine ⟨?_, by simp [hpre], List.takeWhile_append_dropWhile _ _⟩
    unfold word
    by_cases hp : ((c :: rest).dropWhile (fun x => !(isWs x))).isEmpty
    · simp only [hp, if_true, List.isEmpty_cons, Bool.false_eq_true, if_false]
      have hd : (c :: rest).dropWhile (fun x => !(isWs x)) = [] :=
        List.isEmpty_iff.mp hp
      have ht : (c :: rest).takeWhile (fun x => !(isWs x)) = c :: rest := by
        have := List.takeWhile_append_dropWhile (p := fun x => !(isWs x))
          (l := c :: rest)
        rw [hd] at this
        simpa using this
      rw [hd, ht]
    · simp only [hp, Bool.false_eq_true, if_false]
      have hq : ¬ ((c :: rest).takeWhile (fun x => !(isWs x))).isEmpty := by
        rw [hpre]; simp
      simp only [hq, Bool.false_eq_true, if_false]
  · intro t
    constructor
    · intro h
      rcases word_err h with ⟨h1, _⟩ | ⟨_, h2⟩
      · exact h1
      · cases h2
    · intro h
      subst h
      unfold word
      simp

/-- C7: for every token producer of `token.rs` (`word`, `squote`,
`dquote`, `shell_meta`, `keyval`) and every input on which it succeeds,
the returned remainder is a suffix of the input window and the returned
token (for `keyval`: both the key and the value) is a contiguous slice of
the input. -/
theorem producers_consume_from_front :
    (∀ t r v : Str, word t = .ok r v →
      (∃ u, u ++ r = t) ∧ (∃ a b, a ++ (v ++ b) = t)) ∧
    (∀ t r v : Str, squote t = .ok r v →
      (∃ u, u ++ r = t) ∧ (∃ a b, a ++ (v ++ b) = t)) ∧
    (∀ t r v : Str, dquote t = .ok r v →
      (∃ u, u ++ r = t) ∧ (∃ a b, a ++ (v ++ b) = t)) ∧
    (∀ t r v : Str, shellMeta t = .ok r v →
      (∃ u, u ++ r = t) ∧ (∃ a b, a ++ (v ++ b) = t)) ∧
    (∀ (t r : Str) (kv : Str × Str), keyval t = .ok r kv →
      (∃ u, u ++ r = t) ∧ (∃ a b, a ++ (kv.1 ++ b) = t) ∧
        (∃ a b, a ++ (kv.2 ++ b) = t)) := by
  refine ⟨?_, ?_, ?_, ?_, ?_⟩
  · intro t r v h
    have hs := (word_ok h).1
    exact ⟨⟨v, hs⟩, ⟨[], r, by rw [← hs]; simp⟩⟩
  · intro t r v h
    have hs := (squote_ok h).1
    exact ⟨⟨'\'' :: v ++ ['\''], by rw [hs]; simp⟩,
      ⟨['\''], '\'' :: r, by rw [hs]; simp⟩⟩
  · intro t r v h
    have hs := dquote_shape h
    exact ⟨⟨'"' :: v ++ ['"'], by rw [hs]; simp⟩,
      ⟨['"'], '"' :: r, by rw [hs]; simp⟩⟩
  · intro t r v h
    have hs := shellMeta_shape h
    exact ⟨⟨'$' :: v, by rw [hs]; simp⟩, ⟨['$'], r, by rw [hs]; simp⟩⟩
  · intro t r kv h
    obtain ⟨hsuf, hkey, hval, _⟩ := keyval_parts h
    obtain ⟨z, hz⟩ := hkey
    exact ⟨hsuf, ⟨[], z, by simpa using hz⟩, hval⟩

/-- Witness for C7 at the concrete input `a b`. -/
theorem producers_consume_from_front_witness :
    (∃ u : Str, u ++ [' ', 'b'] = ['a', ' ', 'b']) ∧
    (∃ a b : Str, a ++ (['a'] ++ b) = ['a', ' ', 'b']) :=
  producers_consume_from_front.1 ['a', ' ', 'b'] [' ', 'b'] ['a'] (by decide)

/-- Witness for C8 at the concrete inputs `ab` and the empty window. -/
theorem word_maximal_run_witness :
    (word ['a', 'b'] =
        .ok (['a', 'b'].dropWhile (fun x => !(isWs x)))
          (['a', 'b'].takeWhile (fun x => !(isWs x))) ∧
      ['a', 'b'].takeWhile (fun x => !(isWs x)) ≠ [] ∧
      ['a', 'b'].takeWhile (fun x => !(isWs x)) ++
        ['a', 'b'].dropWhile (fun x => !(isWs x)) = ['a', 'b']) ∧
    (word [] = .err .incomplete ↔ ([] : Str) = []) :=
  ⟨word_maximal_run.1 ['a', 'b'] 'a' ['b'] rfl (by decide),
    word_maximal_run.2 []⟩

/-- Evaluation of the full pipeline on the input `exit`: the builtin
grammar has no `exit` arm, so resolution falls back to an `Invoke`. -/
theorem cmdParse_exit_eval :
    cmdParse ['e', 'x', 'i', 't'] = .ok (.invoke ⟨['e', 'x', 'i', 't'], []⟩) := by
  decide

/-- C1 counterexample: the input text `exit` does not resolve to a
`Builtin`; it resolves to an external `Invoke` (the `Builtin` type of
`ast/builtin.rs` has no `Exit` variant). -/
theorem exit_is_not_a_builtin_counterexample :
    cmdParse ['e', 'x', 'i', 't'] = .ok (.invoke ⟨['e', 'x', 'i', 't'], []⟩) :=
  cmdParse_exit_eval

/-- C1 amended: the builtin command set is exactly `Clear` and `Cd(path)`;
for the input text `exit`, command resolution yields an external `Invoke`,
not a `Builtin`. -/
theorem builtin_set_is_clear_and_cd :
    cmdParse ['e', 'x', 'i', 't'] = .ok (.invoke ⟨['e', 'x', 'i', 't'], []⟩) ∧
    (∀ (s : Str) (b : Builtin), builtinParse s = .ok b →
      b = .clear ∨ ∃ p, b = .cd p) := by
  refine ⟨cmdParse_exit_eval, ?_⟩
  intro s b h
  unfold builtinParse at h
  cases hsp : splitWhitespace (rustTrim s) with
  | nil => rw [hsp] at h; cases h
  | cons w args =>
    rw [hsp] at h
    by_cases h1 : w = "clear".toList
    · simp only [h1, if_pos rfl] at h
      injection h with h
      exact Or.inl h.symm
    · by_cases h2 : w = "cd".toList
      · simp only [if_neg h1, h2, if_pos rfl] at h
        cases args with
        | nil => simp at h
        | cons p ps =>
          simp only [] at h
          injection h with h
          exact Or.inr ⟨p, h.symm⟩
      · simp only [if_neg h1, if_neg h2] at h
        cases h

/-- Witness for C1 amended at the concrete inputs `exit` and `clear`. -/
theorem builtin_set_is_clear_and_cd_witness :
    Builtin.clear = .clear ∨ ∃ p, Builtin.clear = .cd p :=
  builtin_set_is_clear_and_cd.2 ['c', 'l', 'e', 'a', 'r'] .clear
    (by decide)

/-- C2: evaluation of the full pipeline at the failing input
`TEST=1 AUTHOR=myrrlyn cd 'complex path'`.  The environment prefix parses
as claimed, but `Builtin::parse_from` splits the command text on bare
whitespace, so the `cd` path is the slice `'complex` — not the
single-quoted argument `complex path` that the repository's own test
(`ast/mod.rs`, test `with_env`) asserts. -/
theorem with_env_cd_quoted_path_eval :
    withEnvParse ("TEST=1 AUTHOR=myrrlyn cd 'complex path'".toList) =
      .ok ([(['T', 'E', 'S', 'T'], ['1']),
            (['A', 'U', 'T', 'H', 'O', 'R'], "myrrlyn".toList)],
        .builtin (.cd ['\'', 'c', 'o', 'm', 'p', 'l', 'e', 'x'])) := by
  simp [withEnvParse, envScan, envNext, keyval, atom, alt2, takeUntil1, tagChar, word,
    squote, dquote, dquoteGo, shellMeta, smLoop, smNext, trimStart, isWs, takeUntil,
    cmdParse, builtinParse, splitWhitespace, splitWsAux, rustTrim, trimEnd, invokeParse, argsNext,
    span, parseToken, pdquote, pdquoteGo]

/-- C3 counterexample: in the `keyval` producer the value `$(cmd)` is
parsed by the shell-meta alternative (token `(cmd)`), whereas a
word-first alternation as described by the spec would return the whole
word `$(cmd)`. -/
theorem keyval_value_order_counterexample :
    keyval ['k', '=', '$', '(', 'c', 'm', 'd', ')'] =
        .ok [] (['k'], ['(', 'c', 'm', 'd', ')']) ∧
    specKeyvalValue ['$', '(', 'c', 'm', 'd', ')'] =
        .ok [] ['$', '(', 'c', 'm', 'd', ')'] ∧
    (['(', 'c', 'm', 'd', ')'] : Str) ≠ ['$', '(', 'c', 'm', 'd', ')'] := by
  refine ⟨?_, ?_, by decide⟩
  · simp [keyval, atom, alt2, takeUntil1, tagChar, word, squote, dquote, dquoteGo,
      shellMeta, smLoop, smNext, trimStart, isWs, takeUntil]
  · simp [specKeyvalValue, alt2, word, isWs]

/-- C3 amended: the value to the right of `=` is parsed by `atom`, which
tries shell-meta, then double-quote, then single-quote, then word — in
that order — so a shell meta-sequence IS accepted as a top-level value
form, and a double-quoted value wins over the bare-word reading. -/
theorem keyval_value_priority_amended :
    keyval ("k=$x y".toList) = .ok (' ' :: ['y']) (['k'], ['x']) ∧
    keyval ("k=\"a b\"".toList) = .ok [] (['k'], ['a', ' ', 'b']) ∧
    keyval ("k='a b' z".toList) = .ok [' ', 'z'] (['k'], ['a', ' ', 'b']) ∧
    keyval ("k=w z".toList) = .ok [' ', 'z'] (['k'], ['w']) := by
  refine ⟨?_, ?_, ?_, ?_⟩ <;>
    simp [keyval, atom, alt2, takeUntil1, tagChar, word, squote, dquote, dquoteGo,
      shellMeta, smLoop, smNext, trimStart, isWs, takeUntil]

/-- C4 counterexample: the input `cd` with no path does not surface the
"no path provided" failure — `Cmd::parse_from` swallows it and falls back
to an external `Invoke` named `cd`. -/
theorem bare_cd_is_an_invoke_counterexample :
    cmdParse ['c', 'd'] = .ok (.invoke ⟨['c', 'd'], []⟩) := by
  decide

/-! ### `split_whitespace` structure lemmas -/

theorem splitWsAux_nil (acc : Str) :
    splitWsAux [] acc = if acc.isEmpty then [] else [acc.reverse] := rfl

theorem splitWsAux_cons_ws {c : Char} (h : isWs c = true) (rest : Str) (acc : Str) :
    splitWsAux (c :: rest) acc =
      if acc.isEmpty then splitWsAux rest []
      else acc.reverse :: splitWsAux rest [] := by
  simp only [splitWsAux, h, if_true]

theorem splitWsAux_cons_not_ws {c : Char} (h : isWs c = false) (rest acc : Str) :
    splitWsAux (c :: rest) acc = splitWsAux rest (c :: acc) := by
  simp only [splitWsAux, h, Bool.false_eq_true, if_false]

theorem splitWsAux_all_ws : ∀ w acc : Str, w.all isWs = true →
    splitWsAux w acc = if acc.isEmpty then [] else [acc.reverse] := by
  intro w
  induction w with
  | nil => intro acc _; rfl
  | cons c w' IH =>
    intro acc hw
    simp only [List.all_cons, Bool.and_eq_true] at hw
    rw [splitWsAux_cons_ws hw.1, IH [] hw.2]
    by_cases ha : acc.isEmpty
    · rw [if_pos ha, if_pos ha]
      rfl
    · rw [if_neg ha, if_neg ha]
      rfl

theorem splitWsAux_ws_skip : ∀ p x : Str, p.all isWs = true →
    splitWsAux (p ++ x) [] = splitWsAux x [] := by
  intro p
  induction p with
  | nil => intro x _; rfl
  | cons c p' IH =>
    intro x hp
    simp only [List.all_cons, Bool.and_eq_true] at hp
    rw [List.cons_append, splitWsAux_cons_ws hp.1]
    simp only [List.isEmpty_nil, if_true]
    exact IH x hp.2

theorem splitWsAux_run : ∀ run : Str, run.all (fun c => !(isWs c)) = true →
    ∀ (r acc : Str), splitWsAux (run ++ r) acc = splitWsAux r (run.reverse ++ acc) := by
  intro run
  induction run with
  | nil => intro _ r acc; rfl
  | cons c run' IH =>
    intro hr r acc
    simp only [List.all_cons, Bool.and_eq_true] at hr
    have hc : isWs c = false := by
      have := hr.1; simp at this; exact this
    rw [List.cons_append, splitWsAux_cons_not_ws hc, IH hr.2 r (c :: acc)]
    congr 1
    simp

theorem splitWsAux_ws_suffix : ∀ x w acc : Str, w.all isWs = true →
    splitWsAux (x ++ w) acc = splitWsAux x acc := by
  intro x
  induction x with
  | nil =>
    intro w acc hw
    rw [List.nil_append, splitWsAux_all_ws w acc hw]
    rfl
  | cons c x' IH =>
    intro w acc hw
    rw [List.cons_append]
    by_cases hc : isWs c
    · rw [splitWsAux_cons_ws hc, splitWsAux_cons_ws hc]
      by_cases ha : acc.isEmpty
      · rw [if_pos ha, if_pos ha, IH w [] hw]
      · rw [if_neg ha, if_neg ha, IH w [] hw]
    · have hc2 : isWs c = false := eq_false_of_ne_true hc
      rw [splitWsAux_cons_not_ws hc2, splitWsAux_cons_not_ws hc2, IH w (c :: acc) hw]

/-- Trailing whitespace decomposition of `trim_end`. -/
theorem trimEnd_decomp (x : Str) :
    ∃ w, x = trimEnd x ++ w ∧ w.all isWs = true := by
  refine ⟨(x.reverse.takeWhile isWs).reverse, ?_, ?_⟩
  · unfold trimEnd
    conv_lhs => rw [← List.reverse_reverse x]
    rw [← List.reverse_append]
    congr 1
    exact (List.takeWhile_append_dropWhile _ _).symm
  · rw [List.all_eq_true]
    intro a ha
    rw [List.mem_reverse] at ha
    exact List.mem_takeWhile_imp ha

/-- `split_whitespace` ignores the `trim` done by `Builtin::parse_from`. -/
theorem splitWhitespace_rustTrim (s : Str) :
    splitWhitespace (rustTrim s) = splitWhitespace s := by
  unfold splitWhitespace rustTrim
  obtain ⟨w, hw1, hw2⟩ := trimEnd_decomp (trimStart s)
  have h1 : splitWsAux (trimStart s) [] = splitWsAux (trimEnd (trimStart s)) [] := by
    conv_lhs => rw [hw1]
    exact splitWsAux_ws_suffix _ w [] hw2
  have h2 : splitWsAux s [] = splitWsAux (trimStart s) [] := by
    conv_lhs => rw [← List.takeWhile_append_dropWhile (p := isWs) (l := s)]
    exact splitWsAux_ws_skip _ _ (by
      rw [List.all_eq_true]
      intro a ha
      exact List.mem_takeWhile_imp ha)
  rw [h2, h1]

/-- `trim_start` ignores an all-whitespace prefix. -/
theorem trimStart_ws_append {p : Str} (hp : p.all isWs = true) (x : Str) :
    trimStart (p ++ x) = trimStart x := by
  unfold trimStart
  rw [List.dropWhile_append]
  have : p.dropWhile isWs = [] := List.dropWhile_eq_nil_iff.mpr (by
    intro a ha; exact List.all_eq_true.mp hp a ha)
  simp [this]

/-- C4 amended: a line whose command word is `cd` followed by at least one
whitespace-separated argument resolves to `Builtin::Cd` (never `Invoke`);
bare `cd` makes `Builtin::parse_from` fail with the "no path provided"
condition, but `Cmd::parse_from` swallows that error and falls back to an
external `Invoke` named `cd`. -/
theorem cd_priority_amended :
    ∀ pre r : Str, pre.all isWs = true →
      (r = [] ∨ ∃ cw r2, r = cw :: r2 ∧ isWs cw = true) →
      ((splitWhitespace r = [] →
          builtinParse (pre ++ 'c' :: 'd' :: r) = .error .noPath ∧
          cmdParse (pre ++ 'c' :: 'd' :: r) = .ok (.invoke ⟨['c', 'd'], r⟩)) ∧
        (∀ p ps, splitWhitespace r = p :: ps →
          cmdParse (pre ++ 'c' :: 'd' :: r) = .ok (.builtin (.cd p)))) := by
  intro pre r hpre hr
  have hsplit : splitWhitespace (rustTrim (pre ++ 'c' :: 'd' :: r)) =
      ['c', 'd'] :: splitWhitespace r := by
    rw [splitWhitespace_rustTrim]
    unfold splitWhitespace
    rw [show pre ++ 'c' :: 'd' :: r = pre ++ (['c', 'd'] ++ r) by simp,
      splitWsAux_ws_skip pre _ hpre,
      splitWsAux_run ['c', 'd'] (by decide) r []]
    rcases hr with h0 | ⟨cw, r2, h0, hws⟩
    · subst h0
      rfl
    · subst h0
      show splitWsAux (cw :: r2) ['d', 'c'] = _ :: splitWsAux (cw :: r2) []
      rw [splitWsAux_cons_ws hws, splitWsAux_cons_ws hws]
      simp
  have hbp : ∀ out, splitWhitespace r = out →
      builtinParse (pre ++ 'c' :: 'd' :: r) =
        (match out with
          | [] => .error .noPath
          | p :: _ => .ok (.cd p)) := by
    intro out hout
    unfold builtinParse
    rw [hsplit, hout]
    dsimp only
    rw [if_neg (by decide), if_pos (by decide)]
  -- the command token seen by Invoke
  have hword : word ('c' :: 'd' :: r) = .ok r ['c', 'd'] := by
    rcases hr with h0 | ⟨cw, r2, h0, hws⟩
    · subst h0
      decide
    · subst h0
      have htw : ('c' :: 'd' :: cw :: r2).takeWhile (fun x => !(isWs x)) =
          ['c', 'd'] := by
        simp [List.takeWhile_cons, show isWs 'c' = false from by decide,
          show isWs 'd' = false from by decide, hws]
      have hdw : ('c' :: 'd' :: cw :: r2).dropWhile (fun x => !(isWs x)) =
          cw :: r2 := by
        simp [List.dropWhile_cons, show isWs 'c' = false from by decide,
          show isWs 'd' = false from by decide, hws]
      unfold word
      simp only [htw, hdw]
      simp
  have hinv : invokeParse (pre ++ 'c' :: 'd' :: r) = .ok ⟨['c', 'd'], r⟩ := by
    have hpd : pdquote ('c' :: 'd' :: r) = .err .error := by
      unfold pdquote
      rw [if_neg (by simp [all_isWs_false_cons (show isWs 'c' = false by decide)])]
      dsimp only
      rw [if_neg (by decide)]
    have hsq : squote ('c' :: 'd' :: r) = .err .error :=
      squote_err_of_head (by decide)
    have hspan : span (pre ++ 'c' :: 'd' :: r) = .ok r ['c', 'd'] := by
      unfold span parseToken
      rw [trimStart_ws_append hpre]
      rw [show trimStart ('c' :: 'd' :: r) = 'c' :: 'd' :: r from
        trimStart_cons_of_not_ws (by decide) _]
      rw [hpd, hsq]
      unfold alt2
      rw [hword]
    have hlen : ¬ ((pre ++ 'c' :: 'd' :: r).length ≤ 0) := by
      simp [List.length_append]
    unfold invokeParse argsNext
    rw [if_neg hlen, hspan]
  constructor
  · intro hempty
    have hb : builtinParse (pre ++ 'c' :: 'd' :: r) = .error .noPath :=
      hbp [] hempty
    refine ⟨hb, ?_⟩
    unfold cmdParse
    rw [hb]
    dsimp only
    rw [hinv]
  · intro p ps hout
    have hb : builtinParse (pre ++ 'c' :: 'd' :: r) = .ok (.cd p) :=
      hbp (p :: ps) hout
    unfold cmdParse
    rw [hb]

/-- Witness for C4 amended: `cd /t` is the builtin, bare `cd  ` the
fallback invoke. -/
theorem cd_priority_amended_witness :
    cmdParse ([] ++ 'c' :: 'd' :: [' ', '/', 't']) =
      .ok (.builtin (.cd ['/', 't'])) :=
  (cd_priority_amended [] [' ', '/', 't'] (by decide)
      (Or.inr ⟨' ', ['/', 't'], rfl, by decide⟩)).2
    ['/', 't'] [] (by decide)

/-! ### C6: the shell-meta token on bracketed forms -/

/-- C6: a successful `shell_meta` token excludes the leading `$` sigil and
the remainder starts exactly where the token ends; on the bracketed forms
the token retains the enclosing punctuation (it begins with `(` resp. `{`
and ends with `)` resp. `}`); and nesting is respected: on
`$(cmd $(inner))` the producer returns the token `(cmd $(inner))` with an
empty remainder. -/
theorem shell_meta_bracketed_token :
    (∀ s r v : Str, shellMeta s = .ok r v → s = '$' :: (v ++ r)) ∧
    (∀ rest r v : Str, shellMeta ('$' :: '(' :: rest) = .ok r v →
      v.head? = some '(' ∧ v.getLast? = some ')') ∧
    (∀ rest r v : Str, shellMeta ('$' :: '{' :: rest) = .ok r v →
      v.head? = some '{' ∧ v.getLast? = some '}') ∧
    shellMeta ("$(cmd $(inner))".toList) = .ok [] ("(cmd $(inner))".toList) := by
  refine ⟨fun s r v h => shellMeta_shape h,
    fun rest r v h => shellMeta_paren_shape h,
    fun rest r v h => shellMeta_brace_shape h, ?_⟩
  simp [shellMeta, smLoop, smNext, word, squote, dquote, dquoteGo, trimStart,
    isWs, takeUntil, tagChar]

/-- Witness for C6 at the inputs `$x`, `$(y)` and `${y}`. -/
theorem shell_meta_bracketed_token_witness :
    (("$x".toList : Str) = '$' :: ("x".toList ++ [])) ∧
    (("(y)".toList : Str).head? = some '(' ∧
      ("(y)".toList : Str).getLast? = some ')') ∧
    (("{y}".toList : Str).head? = some '{' ∧
      ("{y}".toList : Str).getLast? = some '}') :=
  ⟨shell_meta_bracketed_token.1 "$x".toList [] "x".toList (by
      simp [shellMeta, word, isWs]),
   shell_meta_bracketed_token.2.1 "y)".toList [] "(y)".toList (by
      simp [shellMeta, smLoop, smNext, word, squote, dquote, dquoteGo,
        trimStart, isWs, takeUntil, tagChar]),
   shell_meta_bracketed_token.2.2.1 ['y', '}'] [] "{y}".toList (by
      simp [shellMeta, smLoop, smNext, word, squote, dquote, dquoteGo,
        trimStart, isWs, takeUntil, tagChar])⟩

/-! ### C10: nested bare words swallow the closing bracket -/

/-- On a head character that opens none of the fast-forward tokenizers,
`smNext` yields nothing. -/
theorem smNext_none_of_plain {c : Char} (rest : Str) (hws : isWs c = false)
    (hdq : c ≠ '"') (hsq : c ≠ '\'') (hdl : c ≠ '$') :
    smNext (c :: rest) = none := by
  rw [smNext.eq_def, trimStart_cons_of_not_ws hws,
    dquote_err_of_head (all_isWs_false_cons hws rest) hdq,
    squote_err_of_head hsq, shellMeta_err_of_head hdl]

/-- If the double- and single-quote tokenizers fail and `shell_meta`
succeeds, `smNext` fast-forwards to the latter's remainder. -/
theorem smNext_of_sm_ok {rem rest tk : Str} {e1 e2 : TErr}
    (hdq : dquote (trimStart rem) = .err e1)
    (hsq : squote (trimStart rem) = .err e2)
    (hsm : shellMeta (trimStart rem) = .ok rest tk) :
    smNext rem = some rest := by
  rw [smNext.eq_def, hdq, hsq, hsm]

/-- The bracket search on an exhausted window reports `Incomplete`. -/
theorem smLoop_nil (text : Str) (close : Char) :
    smLoop text close [] = .err .incomplete := by
  rw [smLoop.eq_def]; simp

/-- `shell_meta` on a bare-word form: the `$` hands the whole window to
`word`, which consumes every non-whitespace character. -/
theorem shellMeta_bare {c0 : Char} {w : Str}
    (h1 : ((c0 :: w).all fun c => !(isWs c)) = true)
    (hp : c0 ≠ '(') (hb : c0 ≠ '{') :
    shellMeta ('$' :: c0 :: w) = .ok [] (c0 :: w) := by
  rw [shellMeta.eq_def]
  dsimp only
  rw [if_pos rfl, if_neg hp, if_neg hb]
  exact word_all_not_ws (by simp) h1

/-- The bracket search skips over characters that open no tokenizer and
are not the closer. -/
theorem smLoop_skip_plain : ∀ p : Str,
    (p.all fun c =>
      !(isWs c) && !(c == '"') && !(c == '\'') && !(c == '$') && !(c == ')')) = true →
    ∀ text rem : Str, smLoop text ')' (p ++ rem) = smLoop text ')' rem := by
  intro p
  induction p with
  | nil => intro _ text rem; rfl
  | cons c p' IH =>
    intro hall text rem
    simp only [List.all_cons, Bool.and_eq_true, Bool.not_eq_true',
      beq_eq_false_iff_ne, ne_eq] at hall
    obtain ⟨⟨⟨⟨⟨hws, hdq⟩, hsq⟩, hdl⟩, hcl⟩, hrest⟩ := hall
    rw [List.cons_append, smLoop.eq_def]
    simp only [all_isWs_false_cons hws (p' ++ rem), Bool.false_eq_true, if_false]
    rw [smNext_none_of_plain (p' ++ rem) hws hdq hsq hdl]
    dsimp only
    rw [if_neg hcl]
    exact IH hrest text rem

/-- At a whitespace break followed by `$` and a bare word that runs to the
end of the window, the bracket search fast-forwards over the entire rest
of the window — closing bracket included — and then hits the exhausted
window. -/
theorem smLoop_dollar_word {c0 : Char} {w : Str} (text : Str)
    (h1 : ((c0 :: w).all fun c => !(isWs c)) = true)
    (hp : c0 ≠ '(') (hb : c0 ≠ '{') :
    smLoop text ')' (' ' :: '$' :: (c0 :: w ++ [')'])) = .err .incomplete := by
  have h1' : ((c0 :: (w ++ [')'])).all fun c => !(isWs c)) = true := by
    simp only [List.all_cons, Bool.and_eq_true] at h1 ⊢
    refine ⟨h1.1, ?_⟩
    simp only [List.all_append, Bool.and_eq_true]
    exact ⟨h1.2, by decide⟩
  have hsm : shellMeta ('$' :: c0 :: (w ++ [')'])) = .ok [] (c0 :: (w ++ [')'])) :=
    shellMeta_bare h1' hp hb
  have htr : trimStart (' ' :: '$' :: (c0 :: w ++ [')'])) =
      '$' :: c0 :: (w ++ [')']) := by
    rw [trimStart_cons_of_ws (by decide),
      trimStart_cons_of_not_ws (by decide)]
    simp
  have hnx : smNext (' ' :: '$' :: (c0 :: w ++ [')'])) = some [] := by
    refine @smNext_of_sm_ok (' ' :: '$' :: (c0 :: w ++ [')'])) []
      (c0 :: (w ++ [')'])) .error .error ?_ ?_ ?_
    · rw [htr]
      exact dquote_err_of_head (all_isWs_false_cons (by decide) _) (by decide)
    · rw [htr]
      exact squote_err_of_head (by decide)
    · rw [htr]; exact hsm
  rw [smLoop.eq_def]
  have hws_all : ((' ' :: '$' :: (c0 :: w ++ [')'])).all isWs) = false := by
    simp only [List.all_cons]
    have : isWs '$' = false := by decide
    simp [this]
  simp only [hws_all, Bool.false_eq_true, if_false]
  rw [hnx]
  dsimp only
  rw [List.take_nil]
  exact smLoop_nil text ')'

/-- C10: inside a bracketed meta-sequence, a nested bare-word `$w` hands
the rest of the window to `word`, which consumes every following
non-whitespace character — closing brackets and quotes included; so any
`$( … $w)` whose bare word runs to the closing parenthesis exhausts the
window and fails with `Incomplete`, while the braced nested form closes
properly.  Concretely `$(cmd $var)` is `Incomplete` and `$(cmd ${var})`
succeeds. -/
theorem nested_bare_word_swallows_closer :
    (∀ (c0 : Char) (w : Str), ((c0 :: w).all fun c => !(isWs c)) = true →
      c0 ≠ '(' → c0 ≠ '{' →
      shellMeta ('$' :: c0 :: w) = .ok [] (c0 :: w)) ∧
    (∀ (p : Str) (c0 : Char) (w : Str),
      (p.all fun c =>
        !(isWs c) && !(c == '"') && !(c == '\'') && !(c == '$') && !(c == ')')) = true →
      ((c0 :: w).all fun c => !(isWs c)) = true → c0 ≠ '(' → c0 ≠ '{' →
      shellMeta ('$' :: '(' :: (p ++ ' ' :: '$' :: (c0 :: w ++ [')']))) =
        .err .incomplete) ∧
    shellMeta ("$(cmd $var)".toList) = .err .incomplete ∧
    shellMeta ("$(cmd ${var})".toList) = .ok [] ("(cmd ${var})".toList) := by
  refine ⟨fun c0 w h1 hp hb => shellMeta_bare h1 hp hb, ?_, ?_, ?_⟩
  · intro p c0 w hall h1 hp hb
    rw [shellMeta.eq_def]
    dsimp only
    rw [if_pos rfl, if_pos rfl]
    rw [smLoop_skip_plain p hall]
    exact smLoop_dollar_word _ h1 hp hb
  · simp [shellMeta, smLoop, smNext, word, squote, dquote, dquoteGo, trimStart,
      isWs, takeUntil, tagChar]
  · simp [shellMeta, smLoop, smNext, word, squote, dquote, dquoteGo, trimStart,
      isWs, takeUntil, tagChar]

/-- Witness for C10 at the bare word `$x` and the window `$(c $v)`. -/
theorem nested_bare_word_swallows_closer_witness :
    shellMeta ('$' :: 'x' :: []) = .ok [] ('x' :: []) ∧
    shellMeta ('$' :: '(' :: (['c'] ++ ' ' :: '$' :: ('v' :: [] ++ [')']))) =
      .err .incomplete :=
  ⟨nested_bare_word_swallows_closer.1 'x' [] (by decide) (by decide) (by decide),
   nested_bare_word_swallows_closer.2.1 ['c'] 'v' [] (by decide) (by decide)
     (by decide) (by decide)⟩


/-! ### C5: step lemmas for the bracket search -/

/-- `smNext` only inspects the whitespace-trimmed window. -/
theorem smNext_congr {a b : Str} (h : trimStart a = trimStart b) :
    smNext a = smNext b := by
  simp only [smNext.eq_def]
  rw [h]

/-- A successful leading `dquote` fast-forwards the bracket search. -/
theorem smNext_of_dq_ok {rem rest tk : Str}
    (h : dquote (trimStart rem) = .ok rest tk) : smNext rem = some rest := by
  rw [smNext.eq_def, h]

/-- A successful leading `squote` fast-forwards the bracket search. -/
theorem smNext_of_sq_ok {rem rest tk : Str} {e1 : TErr}
    (hd : dquote (trimStart rem) = .err e1)
    (h : squote (trimStart rem) = .ok rest tk) : smNext rem = some rest := by
  rw [smNext.eq_def, hd, h]

/-- A window containing one non-whitespace character is not blank. -/
theorem all_isWs_false_of_mem {c : Char} {l : Str} (hm : c ∈ l)
    (hc : isWs c = false) : l.all isWs = false := by
  cases hall : l.all isWs with
  | false => rfl
  | true => exact absurd (List.all_eq_true.mp hall c hm) (by simp [hc])

/-- Fast-forward step of the bracket search: when `smNext` selects a
leading span, the search continues on that span's remainder. -/
theorem smLoop_ff {text r2 : Str} {close c : Char} {rest2 : Str}
    (hws : ((c :: rest2).all isWs) = false)
    (hnx : smNext (c :: rest2) = some r2)
    (hlen : r2.length ≤ rest2.length) :
    smLoop text close (c :: rest2) = smLoop text close r2 := by
  rw [smLoop.eq_def]
  simp only [hws, Bool.false_eq_true, if_false]
  rw [hnx]
  dsimp only
  rw [List.take_of_length_le hlen]

/-- Skip step of the bracket search: a character that opens no tokenizer
and is not the closer is stepped over. -/
theorem smLoop_skip1 {text : Str} {close c : Char} {rest : Str}
    (hws : ((c :: rest).all isWs) = false)
    (hnx : smNext (c :: rest) = none)
    (hne : c ≠ close) :
    smLoop text close (c :: rest) = smLoop text close rest := by
  rw [smLoop.eq_def]
  simp only [hws, Bool.false_eq_true, if_false]
  rw [hnx]
  dsimp only
  rw [if_neg hne]

/-- Closing step of the bracket search: on the closer the token is sliced
out of `text`, enclosing punctuation included. -/
theorem smLoop_close {text : Str} {close : Char} {rest : Str}
    (hws : ((close :: rest).all isWs) = false)
    (hnx : smNext (close :: rest) = none) :
    smLoop text close (close :: rest) =
      .ok (text.drop (text.length - (close :: rest).length + 1))
          (text.take (text.length - (close :: rest).length + 1)) := by
  rw [smLoop.eq_def]
  simp only [hws, Bool.false_eq_true, if_false]
  rw [hnx]
  dsimp only
  simp only [if_true]

/-- The bracket search ignores leading whitespace (as long as the rest of
the window is not blank and the closer is not itself whitespace). -/
theorem smLoop_cons_ws {text : Str} {close c : Char} {rest : Str}
    (hc : isWs c = true) (hrest : rest.all isWs = false)
    (hcl : isWs close = false) :
    smLoop text close (c :: rest) = smLoop text close rest := by
  have hws : ((c :: rest).all isWs) = false := by
    simp [List.all_cons, hrest]
  have hnxc : smNext (c :: rest) = smNext rest :=
    smNext_congr (trimStart_cons_of_ws hc rest)
  cases hnx : smNext rest with
  | none =>
    refine smLoop_skip1 hws (hnxc.trans hnx) ?_
    intro he
    subst he
    simp [hcl] at hc
  | some r2 =>
    have h1 : r2.length < rest.length := smNext_lt hnx
    cases rest with
    | nil => simp at hrest
    | cons c2 rest2 =>
      rw [smLoop_ff hws (hnxc.trans hnx) h1.le,
        smLoop_ff hrest hnx (by simp only [List.length_cons] at h1; omega)]

/-- Every rendered meta-sequence begins with the `$` sigil. -/
theorem flatM_cons : ∀ m : MTree, flatM m = '$' :: (flatM m).drop 1 := by
  intro m
  cases m with
  | paren l => simp [flatM]
  | brace l => simp [flatM]

/-- A rendered meta-sequence is nonempty. -/
theorem flatM_length_pos (m : MTree) : 0 < (flatM m).length := by
  rw [flatM_cons m]
  simp

/-- A rendered bracket-interior item is nonempty. -/
theorem flatS_length_pos (i : SItem) : 0 < (flatS i).length := by
  cases i with
  | plain c => simp [flatS]
  | squo s => simp [flatS]
  | dquo b => simp [flatS]
  | meta m => simp only [flatS]; exact flatM_length_pos m


/-- Grammar soundness for the nested-interior trees: with fuel `n`
bounding the rendered length, a well-formed rendered meta-sequence is
consumed in full by `shellMeta` (token = rendering minus the sigil), a
well-formed rendered double-quote interior is consumed in full by
`dquoteGo` and `dquote` (token = the interior verbatim, remainder = the
text after the closing quote), and a well-formed rendered bracket
interior followed by its closer is consumed in full by `smLoop`. -/
theorem grammar_main : ∀ n : Nat,
    (∀ m : MTree, wfM m = true → ∀ tail : Str, (flatM m).length ≤ n →
      shellMeta (flatM m ++ tail) = .ok tail ((flatM m).drop 1)) ∧
    (∀ b : BList, wfBL b = true → ∀ tail : Str, (flatBL b).length ≤ n →
      dquoteGo (flatBL b ++ '"' :: tail) = .ok tail (flatBL b)) ∧
    (∀ b : BList, wfBL b = true → ∀ tail : Str, (flatBL b).length ≤ n →
      dquote ('"' :: (flatBL b ++ '"' :: tail)) = .ok tail (flatBL b)) ∧
    (∀ (l : SList) (close : Char), close = ')' ∨ close = '}' →
      wfSL close l = true → ∀ text tail : Str, (flatSL l).length ≤ n →
      smLoop text close (flatSL l ++ close :: tail) =
        .ok (text.drop (text.length - (close :: tail).length + 1))
            (text.take (text.length - (close :: tail).length + 1))) := by
  intro n
  induction n using Nat.strong_induction_on with
  | _ n IH =>
  have PM : ∀ m : MTree, wfM m = true → ∀ tail : Str, (flatM m).length ≤ n →
      shellMeta (flatM m ++ tail) = .ok tail ((flatM m).drop 1) := by
    intro m hwf tail hlen
    cases m with
    | paren l =>
      simp only [wfM] at hwf
      simp only [flatM, List.length_cons, List.length_append,
        List.length_nil] at hlen
      simp only [flatM, List.cons_append, List.nil_append, List.append_assoc,
        List.singleton_append, List.drop_succ_cons, List.drop_zero]
      rw [shellMeta.eq_def]
      dsimp only
      rw [if_pos rfl, if_pos rfl]
      rw [(IH (n - 1) (by omega)).2.2.2 l ')' (Or.inl rfl) hwf
        ('(' :: (flatSL l ++ ')' :: tail)) tail (by omega)]
      have hT : ('(' :: (flatSL l ++ ')' :: tail)) =
          ('(' :: (flatSL l ++ [')'])) ++ tail := by
        simp [List.cons_append, List.append_assoc]
      have hK : ('(' :: (flatSL l ++ [')'])).length =
          (('(' :: (flatSL l ++ [')'])) ++ tail).length -
            (')' :: tail).length + 1 := by
        simp only [List.length_cons, List.length_append, List.length_nil]
        omega
      rw [hT, List.take_left' hK, List.drop_left' hK]
    | brace l =>
      simp only [wfM] at hwf
      simp only [flatM, List.length_cons, List.length_append,
        List.length_nil] at hlen
      simp only [flatM, List.cons_append, List.nil_append, List.append_assoc,
        List.singleton_append, List.drop_succ_cons, List.drop_zero]
      rw [shellMeta.eq_def]
      dsimp only
      rw [if_pos rfl, if_neg (by decide), if_pos rfl]
      rw [(IH (n - 1) (by omega)).2.2.2 l '}' (Or.inr rfl) hwf
        ('{' :: (flatSL l ++ '}' :: tail)) tail (by omega)]
      have hT : ('{' :: (flatSL l ++ '}' :: tail)) =
          ('{' :: (flatSL l ++ ['}'])) ++ tail := by
        simp [List.cons_append, List.append_assoc]
      have hK : ('{' :: (flatSL l ++ ['}'])).length =
          (('{' :: (flatSL l ++ ['}'])) ++ tail).length -
            ('}' :: tail).length + 1 := by
        simp only [List.length_cons, List.length_append, List.length_nil]
        omega
      rw [hT, List.take_left' hK, List.drop_left' hK]
  have PB : ∀ b : BList, wfBL b = true → ∀ tail : Str, (flatBL b).length ≤ n →
      dquoteGo (flatBL b ++ '"' :: tail) = .ok tail (flatBL b) := by
    intro b hwf tail hlen
    cases b with
    | bnil =>
      simp only [flatBL, List.nil_append]
      rw [dquoteGo.eq_def]
      dsimp only
      rw [if_pos rfl]
    | bcons i b2 =>
      simp only [wfBL, Bool.and_eq_true] at hwf
      obtain ⟨hwfi, hwfb⟩ := hwf
      cases i with
      | plain c =>
        simp only [wfB, Bool.not_eq_true', Bool.or_eq_false_iff,
          beq_eq_false_iff_ne, ne_eq] at hwfi
        obtain ⟨⟨h1, h2⟩, h3⟩ := hwfi
        simp only [flatBL, flatB, List.singleton_append, List.cons_append,
          List.nil_append] at hlen ⊢
        simp only [List.length_cons] at hlen
        rw [dquoteGo.eq_def]
        dsimp only
        rw [if_neg h1, if_neg h2, if_neg h3]
        rw [(IH (n - 1) (by omega)).2.1 b2 hwfb tail (by omega)]
      | esc c =>
        simp only [wfB] at hwfi
        simp only [flatBL, flatB, List.cons_append, List.nil_append]
          at hlen ⊢
        simp only [List.length_cons] at hlen
        rw [dquoteGo.eq_def]
        dsimp only
        rw [if_neg (by decide), if_pos rfl]
        try dsimp only
        rw [(IH (n - 1) (by omega)).2.1 b2 hwfb tail (by omega)]
      | meta m =>
        simp only [wfB] at hwfi
        simp only [flatBL, flatB] at hlen ⊢
        simp only [List.length_append] at hlen
        have hm1 : 0 < (flatM m).length := flatM_length_pos m
        have hsm := PM m hwfi (flatBL b2 ++ '"' :: tail) (by omega)
        have hD := flatM_cons m
        rw [hD] at hsm ⊢
        simp only [List.cons_append, List.append_assoc, List.drop_succ_cons,
          List.drop_zero] at hsm ⊢
        rw [dquoteGo.eq_def]
        dsimp only
        rw [if_neg (by decide), if_neg (by decide), if_pos rfl]
        rw [hsm]
        try dsimp only
        rw [List.drop_left, List.take_left]
        rw [(IH (n - 1) (by omega)).2.1 b2 hwfb tail (by omega)]
  have PD : ∀ b : BList, wfBL b = true → ∀ tail : Str, (flatBL b).length ≤ n →
      dquote ('"' :: (flatBL b ++ '"' :: tail)) = .ok tail (flatBL b) := by
    intro b hwf tail hlen
    rw [dquote.eq_def]
    have hws : (('"' :: (flatBL b ++ '"' :: tail)).all isWs) = false :=
      all_isWs_false_cons (by decide) _
    simp only [hws, Bool.false_eq_true, if_false]
    simp only [reduceIte, if_true]
    exact PB b hwf tail hlen
  have PS : ∀ (l : SList) (close : Char), close = ')' ∨ close = '}' →
      wfSL close l = true → ∀ text tail : Str, (flatSL l).length ≤ n →
      smLoop text close (flatSL l ++ close :: tail) =
        .ok (text.drop (text.length - (close :: tail).length + 1))
            (text.take (text.length - (close :: tail).length + 1)) := by
    intro l close hcl hwf text tail hlen
    have hclws : isWs close = false := by
      rcases hcl with h | h
      · subst h; decide
      · subst h; decide
    have hclq : close ≠ '"' := by
      rcases hcl with h | h
      · subst h; decide
      · subst h; decide
    have hclsq : close ≠ '\'' := by
      rcases hcl with h | h
      · subst h; decide
      · subst h; decide
    have hcld : close ≠ '$' := by
      rcases hcl with h | h
      · subst h; decide
      · subst h; decide
    cases l with
    | snil =>
      simp only [flatSL, List.nil_append]
      exact smLoop_close (all_isWs_false_cons hclws tail)
        (smNext_none_of_plain tail hclws hclq hclsq hcld)
    | scons i l2 =>
      simp only [wfSL, Bool.and_eq_true] at hwf
      obtain ⟨hwfi, hwfl⟩ := hwf
      have hrest_ws : (flatSL l2 ++ close :: tail).all isWs = false :=
        all_isWs_false_of_mem
          (List.mem_append_right _ (List.mem_cons_self _ _)) hclws
      cases i with
      | plain c =>
        simp only [wfS, Bool.not_eq_true', Bool.or_eq_false_iff,
          beq_eq_false_iff_ne, ne_eq] at hwfi
        obtain ⟨⟨⟨h1, h2⟩, h3⟩, h4⟩ := hwfi
        simp only [flatSL, flatS, List.singleton_append, List.cons_append,
          List.nil_append, List.append_assoc] at hlen ⊢
        simp only [List.length_cons] at hlen
        cases hcw : isWs c with
        | false =>
          rw [smLoop_skip1 (all_isWs_false_cons hcw _)
            (smNext_none_of_plain _ hcw h1 h2 h3) h4]
          exact (IH (n - 1) (by omega)).2.2.2 l2 close hcl hwfl text tail
            (by omega)
        | true =>
          rw [smLoop_cons_ws hcw hrest_ws hclws]
          exact (IH (n - 1) (by omega)).2.2.2 l2 close hcl hwfl text tail
            (by omega)
      | squo s =>
        simp only [wfS] at hwfi
        have hmem2 : ∀ ch ∈ s, ch ≠ '\'' := by
          intro ch hch
          have hh := List.all_eq_true.mp hwfi ch hch
          simpa using hh
        simp only [flatSL, flatS, List.cons_append, List.nil_append,
          List.append_assoc, List.singleton_append] at hlen ⊢
        simp only [List.length_cons, List.length_append] at hlen
        have htr : trimStart
            ('\'' :: (s ++ '\'' :: (flatSL l2 ++ close :: tail))) =
            '\'' :: (s ++ '\'' :: (flatSL l2 ++ close :: tail)) :=
          trimStart_cons_of_not_ws (by decide) _
        have hdq : dquote (trimStart
            ('\'' :: (s ++ '\'' :: (flatSL l2 ++ close :: tail)))) =
            .err .error := by
          rw [htr]
          exact dquote_err_of_head (all_isWs_false_cons (by decide) _)
            (by decide)
        have hnx : smNext ('\'' :: (s ++ '\'' :: (flatSL l2 ++ close :: tail)))
            = some (flatSL l2 ++ close :: tail) :=
          smNext_of_sq_ok hdq (by rw [htr]; exact squote_compute hmem2)
        rw [smLoop_ff (all_isWs_false_cons (by decide) _) hnx
          (by simp only [List.length_append, List.length_cons]; omega)]
        exact (IH (n - 1) (by omega)).2.2.2 l2 close hcl hwfl text tail
          (by omega)
      | dquo bb =>
        simp only [wfS] at hwfi
        simp only [flatSL, flatS, List.cons_append, List.nil_append,
          List.append_assoc, List.singleton_append] at hlen ⊢
        simp only [List.length_cons, List.length_append] at hlen
        have hdq := PD bb hwfi (flatSL l2 ++ close :: tail) (by omega)
        have htr : trimStart
            ('"' :: (flatBL bb ++ '"' :: (flatSL l2 ++ close :: tail))) =
            '"' :: (flatBL bb ++ '"' :: (flatSL l2 ++ close :: tail)) :=
          trimStart_cons_of_not_ws (by decide) _
        have hnx : smNext
            ('"' :: (flatBL bb ++ '"' :: (flatSL l2 ++ close :: tail)))
            = some (flatSL l2 ++ close :: tail) :=
          smNext_of_dq_ok (by rw [htr]; exact hdq)
        rw [smLoop_ff (all_isWs_false_cons (by decide) _) hnx
          (by simp only [List.length_append, List.length_cons]; omega)]
        exact (IH (n - 1) (by omega)).2.2.2 l2 close hcl hwfl text tail
          (by omega)
      | meta m =>
        simp only [wfS] at hwfi
        simp only [flatSL, flatS, List.nil_append, List.append_assoc]
          at hlen ⊢
        simp only [List.length_append] at hlen
        have hm1 : 0 < (flatM m).length := flatM_length_pos m
        have hsm := PM m hwfi (flatSL l2 ++ close :: tail) (by omega)
        have hD := flatM_cons m
        rw [hD] at hsm ⊢
        simp only [List.cons_append, List.append_assoc, List.drop_succ_cons,
          List.drop_zero] at hsm ⊢
        have htr : trimStart
            ('$' :: ((flatM m).drop 1 ++ (flatSL l2 ++ close :: tail))) =
            '$' :: ((flatM m).drop 1 ++ (flatSL l2 ++ close :: tail)) :=
          trimStart_cons_of_not_ws (by decide) _
        have hdq : dquote (trimStart
            ('$' :: ((flatM m).drop 1 ++ (flatSL l2 ++ close :: tail)))) =
            .err .error := by
          rw [htr]
          exact dquote_err_of_head (all_isWs_false_cons (by decide) _)
            (by decide)
        have hsq2 : squote (trimStart
            ('$' :: ((flatM m).drop 1 ++ (flatSL l2 ++ close :: tail)))) =
            .err .error := by
          rw [htr]
          exact squote_err_of_head (by decide)
        have hnx : smNext
            ('$' :: ((flatM m).drop 1 ++ (flatSL l2 ++ close :: tail)))
            = some (flatSL l2 ++ close :: tail) :=
          smNext_of_sm_ok hdq hsq2 (by rw [htr]; exact hsm)
        rw [smLoop_ff (all_isWs_false_cons (by decide) _) hnx
          (by simp only [List.length_append]; omega)]
        exact (IH (n - 1) (by omega)).2.2.2 l2 close hcl hwfl text tail
          (by omega)
  exact ⟨PM, PB, PD, PS⟩


/-- C5: for every double-quoted input whose interior is a rendered
well-formed balanced tree (nested `$(...)`/`${...}` sequences, inner
single- and double-quotes, backslash escapes), the double-quote producer
succeeds, returns the full interior verbatim as the token (no escape
substitution), and the remainder begins exactly after the matching outer
closing `"`; concretely, `"dquote $(may "nest")"` yields the token
`dquote $(may "nest")` with empty remainder. -/
theorem dquote_balanced_interior :
    (∀ (b : BList) (tail : Str), wfBL b = true →
      dquote ('"' :: (flatBL b ++ '"' :: tail)) = .ok tail (flatBL b)) ∧
    dquote ("\"dquote $(may \"nest\")\"".toList) =
      .ok [] ("dquote $(may \"nest\")".toList) := by
  refine ⟨fun b tail hwf =>
    (grammar_main (flatBL b).length).2.2.1 b hwf tail (Nat.le_refl _), ?_⟩
  simp [dquote, dquoteGo, shellMeta, smLoop, smNext, word, squote, trimStart,
    isWs, takeUntil, tagChar]

/-- Witness for C5 at the rendered tree of the interior `a$(x)`. -/
theorem dquote_balanced_interior_witness :
    dquote ('"' :: (flatBL (.bcons (.plain 'a')
        (.bcons (.meta (.paren (.scons (.plain 'x') .snil))) .bnil)) ++
      '"' :: [])) =
      .ok [] (flatBL (.bcons (.plain 'a')
        (.bcons (.meta (.paren (.scons (.plain 'x') .snil))) .bnil))) :=
  dquote_balanced_interior.1 _ [] (by
    simp [wfBL, wfB, wfM, wfSL, wfS])


end Ysh
